import Mathlib

/-!
Verification of the discrete factor algebra of the `sill` library.

The development shallowly embeds `table_factor` (sill/factor/table_factor.hpp
and its implementation file) over exact rational arithmetic.  The underlying
`dense_table` container is not part of the provided sources, so its contract
is modelled from the specification (section 4.2): a flat buffer of length
`product(shape)` with mixed-radix indexing in which dimension 0 varies
fastest, the convention pinned down by the `make_dense_table_factor`
documentation in table_factor.hpp and by the concrete marginal example of the
specification.
-/

namespace Sill

/-- A finite variable: a stable identity and an arity (`finite_variable`,
with `v->size()` the arity).  Identity plays the role of the C++ pointer. -/
structure FinVar where
  id : Nat
  card : Nat
deriving DecidableEq, Repr

/-- Key used to order variables, mirroring the arbitrary-but-fixed pointer
order that `std::set<finite_variable*>` uses. -/
def FinVar.key (v : FinVar) : Nat := Nat.pair v.id v.card

/-- Strict ordering on variables (the `std::set` ordering). -/
def vlt (v w : FinVar) : Prop := v.key < w.key

instance : DecidableRel vlt := fun v w => inferInstanceAs (Decidable (_ < _))

theorem vlt_irrefl (v : FinVar) : ¬ vlt v v := Nat.lt_irrefl _

theorem vlt_trans {u v w : FinVar} (h₁ : vlt u v) (h₂ : vlt v w) : vlt u w :=
  Nat.lt_trans h₁ h₂

theorem vlt_asymm {v w : FinVar} (h : vlt v w) : ¬ vlt w v :=
  Nat.lt_asymm h

theorem eq_of_key_eq {v w : FinVar} (h : v.key = w.key) : v = w := by
  have h' := Nat.pair_eq_pair.mp h
  cases v; cases w
  simp only [FinVar.mk.injEq]
  exact ⟨h'.1, h'.2⟩

theorem vlt_trichotomy (v w : FinVar) : vlt v w ∨ v = w ∨ vlt w v := by
  rcases Nat.lt_trichotomy v.key w.key with h | h | h
  · exact Or.inl h
  · exact Or.inr (Or.inl (eq_of_key_eq h))
  · exact Or.inr (Or.inr h)

instance : IsIrrefl FinVar vlt := ⟨vlt_irrefl⟩

instance : IsTrans FinVar vlt := ⟨fun _ _ _ => vlt_trans⟩

instance : IsAntisymm FinVar vlt :=
  ⟨fun _ _ h h' => absurd h' (vlt_asymm h)⟩

/-- Sortedness of a variable list under the set ordering. -/
abbrev VSorted (l : List FinVar) : Prop := List.Sorted vlt l

-- Domains (`finite_domain` = std::set<finite_variable*>) are kept as
-- strictly sorted duplicate-free lists; insertion mirrors std::set.

/-- Ordered insertion of a variable into a sorted duplicate-free list,
mirroring `std::set::insert`. -/
def domInsert (v : FinVar) : List FinVar → List FinVar
  | [] => [v]
  | w :: ws =>
    if vlt v w then v :: w :: ws
    else if v = w then w :: ws
    else w :: domInsert v ws

/-- Canonical sorted duplicate-free domain built from a list of variables
(the effect of inserting them all into an `std::set`). -/
def domOfList (l : List FinVar) : List FinVar :=
  l.foldl (fun acc v => domInsert v acc) []

/-- Set union of two domains (`set_union`). -/
def setUnion (a b : List FinVar) : List FinVar := domOfList (a ++ b)

/-- Set intersection of two domains (`set_intersect`). -/
def setIntersect (a b : List FinVar) : List FinVar :=
  a.filter (fun v => decide (v ∈ b))

/-- Superset test `includes(A, B)`: is `B ⊆ A`. -/
def includesB (a b : List FinVar) : Bool :=
  b.all (fun v => decide (v ∈ a))

theorem includesB_iff (a b : List FinVar) :
    includesB a b = true ↔ ∀ v ∈ b, v ∈ a := by
  simp [includesB]

theorem mem_domInsert {u v : FinVar} {l : List FinVar} :
    u ∈ domInsert v l ↔ u = v ∨ u ∈ l := by
  induction l with
  | nil => simp [domInsert]
  | cons w ws ih =>
    by_cases h₁ : vlt v w
    · simp [domInsert, h₁]
    · by_cases h₂ : v = w
      · subst h₂
        simp only [domInsert, h₁, if_false, if_pos rfl]
        constructor
        · intro h; exact Or.inr h
        · rintro (rfl | h)
          · exact List.mem_cons_self _ _
          · exact h
      · simp only [domInsert, h₁, if_false, h₂, List.mem_cons, ih]
        tauto

theorem sorted_domInsert {v : FinVar} {l : List FinVar} (hs : VSorted l) :
    VSorted (domInsert v l) := by
  induction l with
  | nil => simp [domInsert, VSorted]
  | cons w ws ih =>
    have hw : ∀ u ∈ ws, vlt w u := (List.sorted_cons.mp hs).1
    have hws : VSorted ws := (List.sorted_cons.mp hs).2
    by_cases h₁ : vlt v w
    · simp only [domInsert, if_pos h₁]
      refine List.sorted_cons.mpr ⟨?_, hs⟩
      intro u hu
      rcases List.mem_cons.mp hu with rfl | hu
      · exact h₁
      · exact vlt_trans h₁ (hw u hu)
    · by_cases h₂ : v = w
      · subst h₂
        simp only [domInsert, if_neg h₁, if_pos rfl]
        exact hs
      · simp only [domInsert, if_neg h₁, if_neg h₂]
        refine List.sorted_cons.mpr ⟨?_, ih hws⟩
        intro u hu
        rcases mem_domInsert.mp hu with rfl | hu
        · rcases vlt_trichotomy u w with h | h | h
          · exact absurd h h₁
          · exact absurd h h₂
          · exact h
        · exact hw u hu

theorem domInsert_of_mem {v : FinVar} {l : List FinVar}
    (hs : VSorted l) (hm : v ∈ l) : domInsert v l = l := by
  induction l with
  | nil => cases hm
  | cons w ws ih =>
    have hw : ∀ u ∈ ws, vlt w u := (List.sorted_cons.mp hs).1
    have hws : VSorted ws := (List.sorted_cons.mp hs).2
    rcases List.mem_cons.mp hm with rfl | hm
    · simp [domInsert, vlt_irrefl v]
    · have h₁ : ¬ vlt v w := vlt_asymm (hw v hm)
      by_cases h₂ : v = w
      · subst h₂
        simp [domInsert, h₁]
      · simp [domInsert, h₁, h₂, ih hws hm]

theorem sorted_nodup {l : List FinVar} (hs : VSorted l) : l.Nodup :=
  hs.nodup

theorem vsorted_eq_of_mem_iff {l₁ l₂ : List FinVar} (h₁ : VSorted l₁)
    (h₂ : VSorted l₂) (hm : ∀ u, u ∈ l₁ ↔ u ∈ l₂) : l₁ = l₂ := by
  have hperm : l₁.Perm l₂ :=
    (List.perm_ext_iff_of_nodup (sorted_nodup h₁) (sorted_nodup h₂)).mpr hm
  exact List.eq_of_perm_of_sorted hperm h₁ h₂

theorem sorted_domOfList_aux (l : List FinVar) (acc : List FinVar)
    (hacc : VSorted acc) : VSorted (l.foldl (fun a v => domInsert v a) acc) := by
  induction l generalizing acc with
  | nil => simpa using hacc
  | cons v vs ih => exact ih _ (sorted_domInsert hacc)

theorem sorted_domOfList (l : List FinVar) : VSorted (domOfList l) :=
  sorted_domOfList_aux l [] (by simp [VSorted])

theorem mem_domOfList_aux (l : List FinVar) (acc : List FinVar) (u : FinVar) :
    u ∈ l.foldl (fun a v => domInsert v a) acc ↔ u ∈ acc ∨ u ∈ l := by
  induction l generalizing acc with
  | nil => simp
  | cons v vs ih =>
    simp only [List.foldl_cons, ih, mem_domInsert, List.mem_cons]
    tauto

theorem mem_domOfList {l : List FinVar} {u : FinVar} :
    u ∈ domOfList l ↔ u ∈ l := by
  simpa using mem_domOfList_aux l [] u

theorem domOfList_of_sorted {l : List FinVar} (hs : VSorted l) :
    domOfList l = l :=
  vsorted_eq_of_mem_iff (sorted_domOfList l) hs (fun _ => mem_domOfList)

theorem mem_setUnion {a b : List FinVar} {u : FinVar} :
    u ∈ setUnion a b ↔ u ∈ a ∨ u ∈ b := by
  simp [setUnion, mem_domOfList]

theorem sorted_setUnion (a b : List FinVar) : VSorted (setUnion a b) :=
  sorted_domOfList _

theorem setUnion_of_subset {a b : List FinVar} (hs : VSorted a)
    (hsub : ∀ v ∈ b, v ∈ a) : setUnion a b = a := by
  refine vsorted_eq_of_mem_iff (sorted_setUnion a b) hs (fun u => ?_)
  rw [mem_setUnion]
  constructor
  · rintro (h | h)
    · exact h
    · exact hsub u h
  · exact Or.inl

theorem mem_setIntersect {a b : List FinVar} {u : FinVar} :
    u ∈ setIntersect a b ↔ u ∈ a ∧ u ∈ b := by
  simp [setIntersect]

theorem sorted_setIntersect {a : List FinVar} (b : List FinVar)
    (hs : VSorted a) : VSorted (setIntersect a b) :=
  List.Sorted.filter _ hs

-- Dense table (sill/datastructure/dense_table.hpp is not among the provided
-- sources; the container is modelled from the specification, section 4.2).

/-- Modelled from the spec: number of cells of a table, `product(shape)`
(the flat buffer of a dense table has exactly this length). -/
def tsize (shape : List Nat) : Nat := shape.foldr (· * ·) 1

/-- Modelled from the spec: mixed-radix linear index of a multi-index, with
dimension 0 varying fastest (the convention documented by
`make_dense_table_factor` in table_factor.hpp). -/
def linIndex : List Nat → List Nat → Nat
  | _, [] => 0
  | [], _ => 0
  | n :: ns, i :: is => i + n * linIndex ns is

/-- Modelled from the spec: decoding of a linear index back into the
multi-index of the cell, inverse of `linIndex`. -/
def unlinIndex : List Nat → Nat → List Nat
  | [], _ => []
  | n :: ns, l => (l % n) :: unlinIndex ns (l / n)

/-- Validity of a multi-index for a shape: componentwise in range. -/
abbrev ValidIdx (shape s : List Nat) : Prop :=
  List.Forall₂ (fun i n => i < n) s shape

theorem tsize_cons (n : Nat) (ns : List Nat) : tsize (n :: ns) = n * tsize ns := rfl

theorem linIndex_lt_tsize {shape s : List Nat} (h : ValidIdx shape s) :
    linIndex shape s < tsize shape := by
  induction h with
  | nil => simp [linIndex, tsize]
  | @cons i n s ns hin _ ih =>
    have hn : 0 < n := Nat.lt_of_le_of_lt (Nat.zero_le i) hin
    calc linIndex (n :: ns) (i :: s) = i + n * linIndex ns s := rfl
      _ < n + n * linIndex ns s := by omega
      _ = n * (linIndex ns s + 1) := by ring
      _ ≤ n * tsize ns := Nat.mul_le_mul_left n (Nat.succ_le_of_lt ih)
      _ = tsize (n :: ns) := (tsize_cons n ns).symm

theorem unlinIndex_linIndex {shape s : List Nat} (h : ValidIdx shape s) :
    unlinIndex shape (linIndex shape s) = s := by
  induction h with
  | nil => simp [unlinIndex]
  | @cons i n s ns hin _ ih =>
    have hn : 0 < n := Nat.lt_of_le_of_lt (Nat.zero_le i) hin
    have hmod : (i + n * linIndex ns s) % n = i := by
      rw [Nat.add_mul_mod_self_left, Nat.mod_eq_of_lt hin]
    have hdiv : (i + n * linIndex ns s) / n = linIndex ns s := by
      rw [Nat.add_mul_div_left _ _ hn, Nat.div_eq_of_lt hin, Nat.zero_add]
    have hlin : linIndex (n :: ns) (i :: s) = i + n * linIndex ns s := rfl
    show linIndex (n :: ns) (i :: s) % n ::
        unlinIndex ns (linIndex (n :: ns) (i :: s) / n) = i :: s
    rw [hlin, hmod, hdiv, ih]

theorem validIdx_unlinIndex {shape : List Nat} {l : Nat} (h : l < tsize shape) :
    ValidIdx shape (unlinIndex shape l) := by
  induction shape generalizing l with
  | nil => exact List.Forall₂.nil
  | cons n ns ih =>
    have hn : 0 < n := by
      rcases Nat.eq_zero_or_pos n with rfl | hn
      · simp [tsize_cons] at h
      · exact hn
    refine List.Forall₂.cons (Nat.mod_lt _ hn) (ih ?_)
    rw [tsize_cons] at h
    exact Nat.div_lt_of_lt_mul h

theorem linIndex_unlinIndex {shape : List Nat} {l : Nat} (h : l < tsize shape) :
    linIndex shape (unlinIndex shape l) = l := by
  induction shape generalizing l with
  | nil =>
    have hl : l = 0 := Nat.lt_one_iff.mp h
    subst hl
    rfl
  | cons n ns ih =>
    have hdiv : l / n < tsize ns := by
      rw [tsize_cons] at h
      exact Nat.div_lt_of_lt_mul h
    show l % n + n * linIndex ns (unlinIndex ns (l / n)) = l
    rw [ih hdiv]
    exact Nat.mod_add_div l n

/-- Modelled from the spec: a dense table is a shape vector together with a
flat buffer of cell values, one per mixed-radix index. -/
structure DTable where
  shape : List Nat
  data : List ℚ
deriving DecidableEq, Repr

/-- Modelled from the spec: element access by multi-index. -/
def DTable.get (t : DTable) (s : List Nat) : ℚ :=
  t.data.getD (linIndex t.shape s) 0

/-- Builds a table of the given shape whose cell at multi-index `s` holds
`f s`; the buffer enumerates cells in linear order. -/
def genTable (shape : List Nat) (f : List Nat → ℚ) : DTable :=
  ⟨shape, (List.range (tsize shape)).map (fun l => f (unlinIndex shape l))⟩

theorem genTable_shape (shape : List Nat) (f : List Nat → ℚ) :
    (genTable shape f).shape = shape := rfl

theorem genTable_length (shape : List Nat) (f : List Nat → ℚ) :
    (genTable shape f).data.length = tsize shape := by
  simp [genTable]

theorem genTable_get {shape s : List Nat} (f : List Nat → ℚ)
    (h : ValidIdx shape s) : (genTable shape f).get s = f s := by
  have hlt := linIndex_lt_tsize h
  unfold DTable.get genTable
  rw [List.getD_eq_getElem?_getD]
  simp only [List.getElem?_map]
  rw [List.getElem?_range hlt]
  simp [unlinIndex_linIndex h]

theorem range_mul_eq (n m : Nat) :
    List.range (n * m) =
      (List.range m).flatMap (fun q => (List.range n).map (fun i => i + n * q)) := by
  induction m with
  | zero => simp
  | succ m ih =>
    have : n * (m + 1) = n * m + n := by ring
    rw [this, List.range_add, ih, List.range_succ, List.flatMap_append]
    simp only [List.flatMap_cons, List.flatMap_nil, List.append_nil]
    congr 1
    exact List.map_congr_left fun i _ => Nat.add_comm (n * m) i

-- Assignments and variable-index maps

/-- A finite assignment (`finite_assignment`, a `std::map` from variables to
values): a partial map from variables to value indices. -/
def FAssign := FinVar → Option Nat

/-- Value of an assignment at a variable; the source asserts the variable is
present (`get_shape_from_assignment`), so the default is never observed in
contract-respecting uses. -/
def lookupIdx (a : FAssign) (v : FinVar) : Nat := (a v).getD 0

/-- Lookup in a variable-to-index map (`var_index_map`, a `std::map`),
modelled as an association list: the first binding of the key wins. -/
def alookup (m : List (FinVar × Nat)) (v : FinVar) : Option Nat :=
  (m.find? (fun p => p.1 == v)).map Prod.snd

/-- Lookup asserted to succeed (`safe_get`). -/
def safeGet (m : List (FinVar × Nat)) (v : FinVar) : Nat := (alookup m v).getD 0

/-- The map `arg_seq[i] ↦ i` built by `table_factor::initialize`. -/
def mkVarIndex (seq : List FinVar) : List (FinVar × Nat) :=
  seq.enum.map (fun p => (p.2, p.1))

/-- Shape of the table of a factor with the given argument sequence:
`geometry[i] = arg_seq[i]->size()` (`table_factor::initialize`). -/
def factorShape (seq : List FinVar) : List Nat := seq.map FinVar.card

-- The table factor (class table_factor): argument set, variable-to-index
-- map, argument sequence, and the dense table, as in the source.

/-- The `table_factor` record: `args`, `var_index`, `arg_seq`, `table_data`. -/
structure TF where
  args : List FinVar
  var_index : List (FinVar × Nat)
  arg_seq : List FinVar
  table_data : DTable
deriving DecidableEq, Repr

/-- Embeds `table_factor::initialize(arguments, default_value)`: rebuilds
`arg_seq`, `var_index` and the table (filled with the default), leaving
`args` untouched. -/
def TF.initArgs (f : TF) (arguments : List FinVar) (default : ℚ) : TF :=
  { f with
    arg_seq := arguments,
    var_index := mkVarIndex arguments,
    table_data :=
      ⟨factorShape arguments,
       List.replicate (tsize (factorShape arguments)) default⟩ }

/-- Constructor `table_factor(domain, default_value)`: `args` is the domain
and the table geometry follows the set's iteration order. -/
def TF.ofDomain (d : List FinVar) (default : ℚ) : TF :=
  TF.initArgs ⟨d, [], [], ⟨[], []⟩⟩ d default

/-- Constructor `table_factor(var_vector, values)` (and
`make_dense_table_factor`): the caller-given order fixes the dimensions and
the value vector is copied into the flat buffer in linear order (the source
asserts `table().size() == values.size()`). -/
def TF.ofVec (vs : List FinVar) (values : List ℚ) : TF :=
  let f := TF.initArgs ⟨domOfList vs, [], [], ⟨[], []⟩⟩ vs 0
  { f with table_data := ⟨f.table_data.shape, values⟩ }

/-- Table coordinates of an assignment (`get_shape_from_assignment`). -/
def TF.shapeOfAssign (f : TF) (a : FAssign) : List Nat :=
  f.arg_seq.map (lookupIdx a)

/-- Evaluation `table_factor::v(a)`: table cell at the coordinates of the
assignment. -/
def TF.v (f : TF) (a : FAssign) : ℚ := f.table_data.get (f.shapeOfAssign a)

/-- The map from one factor's dimensions into another's coordinates
(`make_dim_map`). -/
def makeDimMap (vars : List FinVar) (toMap : List (FinVar × Nat)) : List Nat :=
  vars.map (fun v => safeGet toMap v)

/-- Extraction of an operand's coordinates from an output multi-index
through a dimension map (the alignment step of `dense_table::join`). -/
def applyMap (dm s : List Nat) : List Nat := dm.map (fun d => s.getD d 0)

/-- Modelled from the spec: `dense_table::join` — output cell at `s` is
`op(A[s restricted through dimA], B[s restricted through dimB])`. -/
def DTable.join (outShape : List Nat) (x y : DTable) (dmx dmy : List Nat)
    (op : ℚ → ℚ → ℚ) : DTable :=
  genTable outShape (fun s => op (x.get (applyMap dmx s)) (y.get (applyMap dmy s)))

/-- The generic `table_factor::combine(x, y, op)`: a factor over
`set_union(x.args, y.args)` whose table is the join of the operand tables
through their dimension maps. -/
def TF.combine (x y : TF) (op : ℚ → ℚ → ℚ) : TF :=
  let doms := setUnion x.args y.args
  let factor := TF.ofDomain doms 0
  { factor with
    table_data :=
      DTable.join factor.table_data.shape x.table_data y.table_data
        (makeDimMap x.arg_seq factor.var_index)
        (makeDimMap y.arg_seq factor.var_index) op }

/-- The `op_type` enumeration. -/
inductive OpType
  | sum_op | minus_op | product_op | divides_op
  | max_op | min_op | and_op | or_op
deriving DecidableEq, Repr

/-- Modelled from the spec: `safe_divides` — division by zero yields 0. -/
def safeDivides (x y : ℚ) : ℚ := if y = 0 then 0 else x / y

/-- Modelled from the spec: `logical_and` on table values (`x && y` on
doubles yields 1 when both are nonzero, else 0). -/
def logicalAndQ (x y : ℚ) : ℚ := if x ≠ 0 ∧ y ≠ 0 then 1 else 0

/-- Modelled from the spec: `logical_or` on table values (`x || y` on
doubles yields 1 when either is nonzero, else 0). -/
def logicalOrQ (x y : ℚ) : ℚ := if x ≠ 0 ∨ y ≠ 0 then 1 else 0

/-- The per-operation functor (`to_functor(op)`): the binary operation each
`op_type` dispatches to, as used by the operator overloads. -/
def toFunctor : OpType → ℚ → ℚ → ℚ
  | .sum_op => (· + ·)
  | .minus_op => (· - ·)
  | .product_op => (· * ·)
  | .divides_op => safeDivides
  | .max_op => max
  | .min_op => min
  | .and_op => logicalAndQ
  | .or_op => logicalOrQ

/-- The free function `combine(x, y, op_type)`: dispatches to the operator
overloads, each of which is `table_factor::combine` with the corresponding
functor. -/
def combineOp (x y : TF) (op : OpType) : TF := TF.combine x y (toFunctor op)

/-- Modelled from the spec: `dense_table::aggregate` — walks the source
cells in linear order and accumulates each into the target cell selected by
the dimension map, starting from the target's pre-initialized contents. -/
def DTable.aggregate (out src : DTable) (dm : List Nat)
    (agg : ℚ → ℚ → ℚ) : DTable :=
  ⟨out.shape,
   (List.range out.data.length).map (fun lo =>
      ((List.range (tsize src.shape)).filter
          (fun l =>
            decide (applyMap dm (unlinIndex src.shape l) =
              unlinIndex out.shape lo))).foldl
        (fun acc l => agg acc (src.data.getD l 0)) (out.data.getD lo 0))⟩

/-- The functor form of `table_factor::collapse(agg_op, initialvalue,
retained)`: a copy when the retained set includes all arguments, otherwise a
factor over `set_intersect(args, retained)` aggregated from this table. -/
def TF.collapse (f : TF) (aggOp : ℚ → ℚ → ℚ) (initialvalue : ℚ)
    (retained : List FinVar) : TF :=
  if includesB retained f.args then f
  else
    let newargs := setIntersect f.args retained
    let factor := TF.ofDomain newargs initialvalue
    { factor with
      table_data :=
        DTable.aggregate factor.table_data f.table_data
          (makeDimMap factor.arg_seq f.var_index) aggOp }

/-- `table_factor::marginal(retain)`: collapse with `plus` and initial 0. -/
def TF.marginal (f : TF) (retain : List FinVar) : TF :=
  f.collapse (· + ·) 0 retain

/-- Modelled from the spec: `dense_table::join_with` — updates each cell of
this table in place with `op(cell, other[cell's coordinates through the
dimension map])`. -/
def DTable.joinWith (t y : DTable) (dm : List Nat) (op : ℚ → ℚ → ℚ) : DTable :=
  ⟨t.shape,
   (List.range t.data.length).map (fun l =>
      op (t.data.getD l 0) (y.get (applyMap dm (unlinIndex t.shape l))))⟩

/-- The shared shape of the in-place operator overloads (`operator*=` and
the rest): when this factor's arguments include the other's, combine in
place through `join_with`; otherwise fall back to the generic combine. -/
def TF.opInPlace (x y : TF) (op : ℚ → ℚ → ℚ) : TF :=
  if includesB x.args y.args then
    { x with
      table_data :=
        x.table_data.joinWith y.table_data
          (makeDimMap y.arg_seq x.var_index) op }
  else TF.combine x y op

/-- `table_factor::combine_in(y, op)`: dispatches on the `op_type` to the
corresponding in-place operator overload. -/
def TF.combineIn (x y : TF) (op : OpType) : TF :=
  TF.opInPlace x y (toFunctor op)

/-- `table_factor::norm_constant()`: the sum over all cells. -/
def TF.normConstant (f : TF) : ℚ := f.table_data.data.foldl (· + ·) 0

/-- `is_positive_finite` on the exact rationals: a rational is always
finite, so only positivity remains. -/
def isPositiveFinite (z : ℚ) : Prop := 0 < z

instance (z : ℚ) : Decidable (isPositiveFinite z) :=
  inferInstanceAs (Decidable (0 < z))

/-- `table_factor::normalize()`: computes the normalization constant, fails
before touching the table when it is not positive (and finite), otherwise
divides every cell by it. -/
def TF.normalize (f : TF) : Except String TF :=
  let z := f.normConstant
  if isPositiveFinite z then
    Except.ok
      { f with table_data := ⟨f.table_data.shape, f.table_data.data.map (· / z)⟩ }
  else Except.error "factor is not normalizeable"

/-- `make_restrict_map(vars, a)`: per source dimension, the fixed value when
the assignment binds the variable, or the retained marker (modelled by
`none`; the source uses the maximal `size_t`). -/
def makeRestrictMap (vars : List FinVar) (a : FAssign) : List (Option Nat) :=
  vars.map a

/-- Writes the surviving output coordinates into a source index through the
dimension map (`s[dim_map[i]] := t[i]`). -/
def applyDimMapBase (base dm t : List Nat) : List Nat :=
  (dm.zip t).foldl (fun s p => s.set p.1 p.2) base

/-- Modelled from the spec: `dense_table::restrict` — copies the sub-table
obtained by fixing the dimensions the restrict map binds and remapping the
surviving dimensions through the dimension map. -/
def DTable.restrictT (out src : DTable) (rmap : List (Option Nat))
    (dm : List Nat) : DTable :=
  ⟨out.shape,
   (List.range out.data.length).map (fun lo =>
      src.get
        (applyDimMapBase (rmap.map (fun o => o.getD 0)) dm
          (unlinIndex out.shape lo)))⟩

/-- `table_factor::restrict(a)` (the pure overload): keeps the arguments the
assignment does not bind; returns a copy when none is bound, otherwise a
factor over the retained domain filled from the restricted table. -/
def TF.restrict (f : TF) (a : FAssign) : TF :=
  let retained := f.args.filter (fun v => decide (a v = none))
  if retained.length = f.args.length then f
  else
    let factor := TF.ofDomain retained 0
    { factor with
      table_data :=
        DTable.restrictT factor.table_data f.table_data
          (makeRestrictMap f.arg_seq a)
          (makeDimMap factor.arg_seq f.var_index) }

/-- `safe_get(var_map, v)` for variable substitution maps; the source
asserts the key is present, so the identity default is never observed in
contract-respecting uses. -/
def mapGetVar (m : List (FinVar × FinVar)) (v : FinVar) : FinVar :=
  ((m.find? (fun p => p.1 == v)).map Prod.snd).getD v

/-- `subst_vars(args, var_map)`: the image set of the domain. -/
def substVars (d : List FinVar) (m : List (FinVar × FinVar)) : List FinVar :=
  domOfList (d.map (mapGetVar m))

/-- `table_factor::subst_args(var_map)`: substitutes the argument set, the
argument sequence and the keys of `var_index` (`rekey`); the table itself is
not rebuilt. -/
def TF.substArgs (f : TF) (m : List (FinVar × FinVar)) : TF :=
  { f with
    args := substVars f.args m,
    arg_seq := f.arg_seq.map (mapGetVar m),
    var_index := f.var_index.map (fun p => (mapGetVar m p.1, p.2)) }

/-- `table_factor::operator=`: copies all four members from the source. -/
def TF.assignFrom (f other : TF) : TF :=
  { f with
    args := other.args,
    var_index := other.var_index,
    arg_seq := other.arg_seq,
    table_data := other.table_data }

/-- `table_factor::unroll(u)`: a fresh variable whose arity is the product
of the argument arities (the fresh identity stands for
`u.new_finite_variable`), and a factor over just that variable holding this
factor's values in linear order. -/
def TF.unroll (f : TF) (freshId : Nat) : FinVar × TF :=
  let newSize := f.arg_seq.foldr (fun v acc => v.card * acc) 1
  let newV : FinVar := ⟨freshId, newSize⟩
  (newV, TF.ofVec [newV] f.table_data.data)

/-- `table_factor::roll_up(orig_arg_list)`: rebuilds the factor over the
original argument list from the single flattened variable's values (the
source asserts a single argument whose arity is the product of the original
arities). -/
def TF.rollUp (f : TF) (origArgList : List FinVar) : TF :=
  TF.ofVec origArgList f.table_data.data

/-- `get_assignment_from_shape`: assignment sending `arg_seq[i]` to `s[i]`. -/
def assignFromShape (seq : List FinVar) (s : List Nat) : FAssign :=
  fun v => (alookup (mkVarIndex seq) v).map (fun i => s.getD i 0)

/-- The fallback of `table_factor::sample`: every argument at its last
value. -/
def lastAssign (seq : List FinVar) : FAssign :=
  fun v => if v ∈ seq then some (v.card - 1) else none

/-- The inverse-CDF walk of `table_factor::sample` over the cells in linear
order. -/
def sampleWalk (seq : List FinVar) (cells : List (List Nat × ℚ)) (r : ℚ) :
    FAssign :=
  match cells with
  | [] => lastAssign seq
  | (s, c) :: rest => if r < c then assignFromShape seq s else sampleWalk seq rest (r - c)

/-- `table_factor::sample(rng)` as a function of the drawn uniform number
`r`: subtracts cell values in linear order until `r` falls below one,
returning that cell's assignment, or the fallback if the walk exhausts the
table. -/
def TF.sample (f : TF) (r : ℚ) : FAssign :=
  sampleWalk f.arg_seq
    ((List.range (tsize f.table_data.shape)).map
      (fun l => (unlinIndex f.table_data.shape l, f.table_data.data.getD l 0)))
    r

-- Well-formedness: the class invariant tying the four members together.

/-- Well-formedness of a factor: the table has one dimension per argument
with the argument's arity, the buffer has exactly one cell per index,
`var_index` is the index map of `arg_seq`, `args` is the set of `arg_seq`'s
elements, and the arguments are distinct. -/
def TF.Wf (f : TF) : Prop :=
  f.table_data.shape = factorShape f.arg_seq ∧
  f.table_data.data.length = tsize f.table_data.shape ∧
  f.var_index = mkVarIndex f.arg_seq ∧
  f.args = domOfList f.arg_seq ∧
  f.arg_seq.Nodup

instance (f : TF) : Decidable f.Wf := by
  unfold TF.Wf
  infer_instance

/-- An assignment covers a domain when it binds every variable to an
in-range value. -/
def Covers (a : FAssign) (d : List FinVar) : Prop :=
  ∀ v ∈ d, ∃ k, a v = some k ∧ k < v.card

instance (a : FAssign) (d : List FinVar) : Decidable (Covers a d) := by
  refine decidable_of_iff (∀ v ∈ d, ((a v).isSome ∧ (a v).getD 0 < v.card)) ?_
  unfold Covers
  constructor
  · intro h v hv
    obtain ⟨h₁, h₂⟩ := h v hv
    obtain ⟨k, hk⟩ := Option.isSome_iff_exists.mp h₁
    exact ⟨k, hk, by simpa [hk] using h₂⟩
  · intro h v hv
    obtain ⟨k, hk, hlt⟩ := h v hv
    exact ⟨Option.isSome_iff_exists.mpr ⟨k, hk⟩, by simpa [hk] using hlt⟩

-- Lemmas about the variable-index map

theorem enumFrom_swap_succ (n : Nat) (vs : List FinVar) :
    (List.enumFrom (n + 1) vs).map (fun p => (p.2, p.1)) =
      ((List.enumFrom n vs).map (fun p => (p.2, p.1))).map
        (fun q => (q.1, q.2 + 1)) := by
  induction vs generalizing n with
  | nil => rfl
  | cons v vs ih => simp [List.enumFrom_cons, ih]

theorem mkVarIndex_cons (v : FinVar) (vs : List FinVar) :
    mkVarIndex (v :: vs) =
      (v, 0) :: (mkVarIndex vs).map (fun q => (q.1, q.2 + 1)) := by
  show (List.enumFrom 0 (v :: vs)).map (fun p => (p.2, p.1)) = _
  rw [List.enumFrom_cons]
  simp only [List.map_cons]
  rw [enumFrom_swap_succ 0 vs]
  rfl

theorem alookup_mkVarIndex {seq : List FinVar} {w : FinVar} (hw : w ∈ seq) :
    alookup (mkVarIndex seq) w = some (seq.indexOf w) := by
  induction seq with
  | nil => cases hw
  | cons v vs ih =>
    rw [mkVarIndex_cons]
    by_cases hvw : v = w
    · subst hvw
      simp [alookup, List.find?_cons, List.indexOf_cons_self]
    · have hw' : w ∈ vs := by
        rcases List.mem_cons.mp hw with h | h
        · exact absurd h.symm hvw
        · exact h
      have hbeq : (v == w) = false := beq_false_of_ne hvw
      have ihh := ih hw'
      rw [alookup] at ihh
      obtain ⟨p, hp, hsnd⟩ : ∃ p, (mkVarIndex vs).find? (fun q => q.1 == w) = some p ∧
          p.2 = vs.indexOf w := by
        rcases hfind : (mkVarIndex vs).find? (fun q => q.1 == w) with _ | p
        · rw [hfind] at ihh; simp at ihh
        · rw [hfind] at ihh
          exact ⟨p, hfind, by simpa using ihh⟩
      rw [alookup, List.find?_cons_of_neg _ (by simp [hbeq]), List.find?_map]
      have hpred : ((fun q : FinVar × Nat => q.1 == w) ∘
          fun q : FinVar × Nat => (q.1, q.2 + 1)) =
          (fun q : FinVar × Nat => q.1 == w) := rfl
      rw [hpred, hp]
      simp only [Option.map_some']
      rw [List.indexOf_cons_ne _ (by simpa using hvw), hsnd]

theorem getD_map_safeGet {big : List FinVar} (g : FinVar → Nat) {w : FinVar}
    (hw : w ∈ big) :
    (big.map g).getD (safeGet (mkVarIndex big) w) 0 = g w := by
  have hidx : big.indexOf w < big.length := List.indexOf_lt_length.mpr hw
  rw [safeGet, alookup_mkVarIndex hw]
  simp only [Option.getD_some]
  rw [List.getD_eq_getElem?_getD, List.getElem?_map]
  rw [List.getElem?_eq_getElem hidx]
  simp [List.indexOf_get hidx]

theorem applyMap_makeDimMap {seq big : List FinVar} (g : FinVar → Nat)
    (hsub : ∀ w ∈ seq, w ∈ big) :
    applyMap (makeDimMap seq (mkVarIndex big)) (big.map g) = seq.map g := by
  unfold applyMap makeDimMap
  rw [List.map_map]
  exact List.map_congr_left fun w hw => getD_map_safeGet g (hsub w hw)

-- Lemmas about covering assignments

theorem covers_lookupIdx {a : FAssign} {d : List FinVar} (h : Covers a d)
    {v : FinVar} (hv : v ∈ d) : lookupIdx a v < v.card := by
  obtain ⟨k, hk, hlt⟩ := h v hv
  simp [lookupIdx, hk, hlt]

theorem validIdx_map_lookup {seq : List FinVar} {a : FAssign}
    (h : ∀ v ∈ seq, lookupIdx a v < v.card) :
    ValidIdx (factorShape seq) (seq.map (lookupIdx a)) := by
  induction seq with
  | nil => exact List.Forall₂.nil
  | cons v vs ih =>
    exact List.Forall₂.cons (h v (List.mem_cons_self v vs))
      (ih fun w hw => h w (List.mem_cons_of_mem v hw))

theorem mem_args_iff_mem_arg_seq {f : TF} (hf : f.Wf) {w : FinVar} :
    w ∈ f.args ↔ w ∈ f.arg_seq := by
  rw [hf.2.2.2.1]
  exact mem_domOfList

-- Correctness of the generic combine

theorem combine_args (x y : TF) (op : ℚ → ℚ → ℚ) :
    (TF.combine x y op).args = setUnion x.args y.args := rfl

theorem combine_arg_seq (x y : TF) (op : ℚ → ℚ → ℚ) :
    (TF.combine x y op).arg_seq = setUnion x.args y.args := rfl

theorem combine_wf (x y : TF) (op : ℚ → ℚ → ℚ) : (TF.combine x y op).Wf := by
  refine ⟨rfl, genTable_length _ _, rfl, ?_, ?_⟩
  · exact (domOfList_of_sorted (sorted_setUnion x.args y.args)).symm
  · exact sorted_nodup (sorted_setUnion x.args y.args)

theorem v_combine {x y : TF} (op : ℚ → ℚ → ℚ) (hx : x.Wf) (hy : y.Wf)
    {a : FAssign} (ha : Covers a (setUnion x.args y.args)) :
    (TF.combine x y op).v a = op (x.v a) (y.v a) := by
  have hsubx : ∀ w ∈ x.arg_seq, w ∈ setUnion x.args y.args := fun w hw =>
    mem_setUnion.mpr (Or.inl ((mem_args_iff_mem_arg_seq hx).mpr hw))
  have hsuby : ∀ w ∈ y.arg_seq, w ∈ setUnion x.args y.args := fun w hw =>
    mem_setUnion.mpr (Or.inr ((mem_args_iff_mem_arg_seq hy).mpr hw))
  have hvalid : ValidIdx (factorShape (setUnion x.args y.args))
      ((setUnion x.args y.args).map (lookupIdx a)) :=
    validIdx_map_lookup fun v hv => covers_lookupIdx ha hv
  show (DTable.join (factorShape (setUnion x.args y.args)) x.table_data
      y.table_data
      (makeDimMap x.arg_seq (mkVarIndex (setUnion x.args y.args)))
      (makeDimMap y.arg_seq (mkVarIndex (setUnion x.args y.args))) op).get
      ((setUnion x.args y.args).map (lookupIdx a)) = op (x.v a) (y.v a)
  rw [DTable.join, genTable_get _ hvalid,
    applyMap_makeDimMap (lookupIdx a) hsubx,
    applyMap_makeDimMap (lookupIdx a) hsuby]
  rfl

/-- Restriction of an assignment to a domain: the values the operand reads
when a combined assignment is broadcast to it. -/
def restrictA (a : FAssign) (d : List FinVar) : FAssign :=
  fun v => if v ∈ d then a v else none

theorem wf_args_sorted {f : TF} (hf : f.Wf) : VSorted f.args := by
  rw [hf.2.2.2.1]
  exact sorted_domOfList _

theorem v_restrictA {f : TF} {d : List FinVar}
    (hsub : ∀ w ∈ f.arg_seq, w ∈ d) (a : FAssign) :
    f.v (restrictA a d) = f.v a := by
  unfold TF.v TF.shapeOfAssign
  congr 1
  exact List.map_congr_left fun w hw => by
    simp [lookupIdx, restrictA, hsub w hw]

theorem joinWith_get {t y : DTable} (hlen : t.data.length = tsize t.shape)
    {s : List Nat} (hs : ValidIdx t.shape s) (dm : List Nat)
    (op : ℚ → ℚ → ℚ) :
    (t.joinWith y dm op).get s = op (t.get s) (y.get (applyMap dm s)) := by
  have hlt : linIndex t.shape s < tsize t.shape := linIndex_lt_tsize hs
  unfold DTable.joinWith DTable.get
  simp only
  rw [List.getD_eq_getElem?_getD, List.getElem?_map, hlen,
    List.getElem?_range hlt]
  simp [unlinIndex_linIndex hs, DTable.get]

theorem v_opInPlace {x y : TF} (op : ℚ → ℚ → ℚ) (hx : x.Wf) (hy : y.Wf)
    (hinc : ∀ w ∈ y.args, w ∈ x.args) {a : FAssign}
    (ha : Covers a x.args) :
    (TF.opInPlace x y op).v a = op (x.v a) (y.v a) := by
  obtain ⟨hxs, hxl, hxv, hxa, hxn⟩ := hx
  have hincB : includesB x.args y.args = true :=
    (includesB_iff _ _).mpr hinc
  have hsubseq : ∀ w ∈ y.arg_seq, w ∈ x.arg_seq := fun w hw =>
    (mem_args_iff_mem_arg_seq ⟨hxs, hxl, hxv, hxa, hxn⟩).mp
      (hinc w ((mem_args_iff_mem_arg_seq hy).mpr hw))
  have hcovseq : ∀ w ∈ x.arg_seq, lookupIdx a w < w.card := fun w hw =>
    covers_lookupIdx ha ((mem_args_iff_mem_arg_seq ⟨hxs, hxl, hxv, hxa, hxn⟩).mpr hw)
  have hvalid : ValidIdx x.table_data.shape (x.shapeOfAssign a) := by
    rw [hxs]
    exact validIdx_map_lookup hcovseq
  unfold TF.opInPlace
  rw [if_pos hincB]
  show (x.table_data.joinWith y.table_data
      (makeDimMap y.arg_seq x.var_index) op).get (x.shapeOfAssign a) = _
  rw [joinWith_get (by rw [hxl]) hvalid]
  unfold TF.shapeOfAssign
  rw [hxv, applyMap_makeDimMap (lookupIdx a) hsubseq]
  rfl

-- Claim theorems C2 and C4

/-- C2: for every pair of table factors and every `op_type`, the combined
factor's argument set is the union of the operands' argument sets, and its
value at any assignment covering the union is the operation applied to the
operands evaluated at the restriction of the assignment to their own
arguments (variables absent from one operand are broadcast). -/
theorem C2_combine_union_broadcast (x y : TF) (op : OpType) (hx : x.Wf)
    (hy : y.Wf) (a : FAssign) (ha : Covers a (setUnion x.args y.args)) :
    (∀ w, w ∈ (combineOp x y op).args ↔ (w ∈ x.args ∨ w ∈ y.args)) ∧
    (combineOp x y op).v a =
      toFunctor op (x.v (restrictA a x.args)) (y.v (restrictA a y.args)) := by
  constructor
  · intro w
    rw [combineOp, combine_args]
    exact mem_setUnion
  · have hsubx : ∀ w ∈ x.arg_seq, w ∈ x.args := fun w hw =>
      (mem_args_iff_mem_arg_seq hx).mpr hw
    have hsuby : ∀ w ∈ y.arg_seq, w ∈ y.args := fun w hw =>
      (mem_args_iff_mem_arg_seq hy).mpr hw
    rw [combineOp, v_combine (toFunctor op) hx hy ha,
      v_restrictA hsubx a, v_restrictA hsuby a]

/-- Witness for C2 at a concrete input: two single-variable binary factors
multiplied; hypotheses discharged by evaluation. -/
theorem C2_combine_union_broadcast_witness :
    (TF.ofVec [⟨0, 2⟩] [1, 2]).Wf ∧
    Covers (fun v => if v = ⟨0, 2⟩ then some 1 else
        if v = ⟨1, 2⟩ then some 0 else none)
      (setUnion (TF.ofVec [⟨0, 2⟩] [1, 2]).args
        (TF.ofVec [⟨1, 2⟩] [3, 5]).args) ∧
    ((∀ w, w ∈ (combineOp (TF.ofVec [⟨0, 2⟩] [1, 2])
        (TF.ofVec [⟨1, 2⟩] [3, 5]) .product_op).args ↔
        (w ∈ (TF.ofVec [⟨0, 2⟩] [1, 2]).args ∨
         w ∈ (TF.ofVec [⟨1, 2⟩] [3, 5]).args)) ∧
      (combineOp (TF.ofVec [⟨0, 2⟩] [1, 2])
          (TF.ofVec [⟨1, 2⟩] [3, 5]) .product_op).v
        (fun v => if v = ⟨0, 2⟩ then some 1 else
          if v = ⟨1, 2⟩ then some 0 else none) =
      toFunctor .product_op
        ((TF.ofVec [⟨0, 2⟩] [1, 2]).v
          (restrictA (fun v => if v = ⟨0, 2⟩ then some 1 else
            if v = ⟨1, 2⟩ then some 0 else none)
            (TF.ofVec [⟨0, 2⟩] [1, 2]).args))
        ((TF.ofVec [⟨1, 2⟩] [3, 5]).v
          (restrictA (fun v => if v = ⟨0, 2⟩ then some 1 else
            if v = ⟨1, 2⟩ then some 0 else none)
            (TF.ofVec [⟨1, 2⟩] [3, 5]).args))) :=
  ⟨by decide, by decide,
    C2_combine_union_broadcast _ _ .product_op (by decide) (by decide) _
      (by decide)⟩

/-- C4: when one factor's argument set includes the other's, each in-place
`op_type` combination keeps the original table shape (no union-sized
reallocation) yet produces a factor whose argument set and values agree
with the generic union-table combine. -/
theorem C4_inplace_refines_combine (x y : TF) (op : OpType) (hx : x.Wf)
    (hy : y.Wf) (hinc : ∀ w ∈ y.args, w ∈ x.args) :
    (TF.combineIn x y op).table_data.shape = x.table_data.shape ∧
    (TF.combineIn x y op).args = (combineOp x y op).args ∧
    ∀ a, Covers a (setUnion x.args y.args) →
      (TF.combineIn x y op).v a = (combineOp x y op).v a := by
  have hincB : includesB x.args y.args = true := (includesB_iff _ _).mpr hinc
  have hunion : setUnion x.args y.args = x.args :=
    setUnion_of_subset (wf_args_sorted hx) hinc
  refine ⟨?_, ?_, ?_⟩
  · unfold TF.combineIn TF.opInPlace
    rw [if_pos hincB]
    rfl
  · unfold TF.combineIn TF.opInPlace
    rw [if_pos hincB]
    show x.args = (combineOp x y op).args
    rw [combineOp, combine_args, hunion]
  · intro a ha
    rw [hunion] at ha
    rw [TF.combineIn, v_opInPlace (toFunctor op) hx hy hinc ha, combineOp,
      v_combine (toFunctor op) hx hy (by rw [hunion]; exact ha)]

/-- Witness for C4 at a concrete input: a binary-pair factor divided in
place by a single-variable factor over one of its arguments. -/
theorem C4_inplace_refines_combine_witness :
    (TF.ofVec [⟨0, 2⟩, ⟨1, 2⟩] [1, 2, 3, 4]).Wf ∧
    (∀ w ∈ (TF.ofVec [⟨1, 2⟩] [2, 4]).args,
      w ∈ (TF.ofVec [⟨0, 2⟩, ⟨1, 2⟩] [1, 2, 3, 4]).args) ∧
    ((TF.combineIn (TF.ofVec [⟨0, 2⟩, ⟨1, 2⟩] [1, 2, 3, 4])
        (TF.ofVec [⟨1, 2⟩] [2, 4]) .divides_op).table_data.shape =
      (TF.ofVec [⟨0, 2⟩, ⟨1, 2⟩] [1, 2, 3, 4]).table_data.shape ∧
    (TF.combineIn (TF.ofVec [⟨0, 2⟩, ⟨1, 2⟩] [1, 2, 3, 4])
        (TF.ofVec [⟨1, 2⟩] [2, 4]) .divides_op).args =
      (combineOp (TF.ofVec [⟨0, 2⟩, ⟨1, 2⟩] [1, 2, 3, 4])
        (TF.ofVec [⟨1, 2⟩] [2, 4]) .divides_op).args ∧
    ∀ a, Covers a (setUnion (TF.ofVec [⟨0, 2⟩, ⟨1, 2⟩] [1, 2, 3, 4]).args
        (TF.ofVec [⟨1, 2⟩] [2, 4]).args) →
      (TF.combineIn (TF.ofVec [⟨0, 2⟩, ⟨1, 2⟩] [1, 2, 3, 4])
          (TF.ofVec [⟨1, 2⟩] [2, 4]) .divides_op).v a =
      (combineOp (TF.ofVec [⟨0, 2⟩, ⟨1, 2⟩] [1, 2, 3, 4])
          (TF.ofVec [⟨1, 2⟩] [2, 4]) .divides_op).v a) :=
  ⟨by decide, by decide,
    C4_inplace_refines_combine _ _ .divides_op (by decide) (by decide)
      (by decide)⟩

-- Arithmetic of the linear cell enumeration, toward marginalization

theorem foldl_add_map_sum (g : Nat → ℚ) (l : List Nat) (c : ℚ) :
    l.foldl (fun acc i => acc + g i) c = c + (l.map g).sum := by
  induction l generalizing c with
  | nil => simp
  | cons i t ih => simp [ih, add_assoc]

theorem range_filter_eq {x n : Nat} (h : x < n) :
    (List.range n).filter (fun i => decide (i = x)) = [x] := by
  induction n with
  | zero => omega
  | succ m ih =>
    rw [List.range_succ, List.filter_append]
    rcases Nat.lt_or_ge x m with hxm | hxm
    · rw [ih hxm]
      have : (m = x) = False := by simp; omega
      simp [this]
    · have hxm' : x = m := by omega
      subst hxm'
      have hnil : (List.range x).filter (fun i => decide (i = x)) = [] := by
        apply List.filter_eq_nil_iff.mpr
        intro i hi
        have := List.mem_range.mp hi
        simp
        omega
      simp [hnil]

theorem flatMap_single_block {α : Type} {m x : Nat} (hx : x < m)
    (g : Nat → List α) :
    (List.range m).flatMap (fun q => if q = x then g q else []) = g x := by
  induction m with
  | zero => omega
  | succ k ih =>
    rw [List.range_succ, List.flatMap_append]
    rcases Nat.lt_or_ge x k with hxk | hxk
    · have : (k = x) = False := by simp; omega
      simp [ih hxk, this]
    · have hxk' : x = k := by omega
      subst hxk'
      have hnil : (List.range x).flatMap
          (fun q => if q = x then g q else []) = [] := by
        apply List.flatMap_eq_nil_iff.mpr
        intro q hq
        have := List.mem_range.mp hq
        simp
        omega
      simp [hnil]

theorem filter_mod_range {cx : Nat} (cy : Nat) {x : Nat} (hx : x < cx) :
    (List.range (cx * cy)).filter (fun l => decide (l % cx = x)) =
      (List.range cy).map (fun q => x + cx * q) := by
  rw [range_mul_eq cx cy, List.filter_flatMap]
  have hblock : ∀ q, ((List.range cx).map (fun i => i + cx * q)).filter
      (fun l => decide (l % cx = x)) = [x + cx * q] := by
    intro q
    rw [List.filter_map]
    have hcong : (List.range cx).filter
        ((fun l => decide (l % cx = x)) ∘ fun i => i + cx * q) =
        (List.range cx).filter (fun i => decide (i = x)) := by
      apply List.filter_congr
      intro i hi
      have hi' : i < cx := List.mem_range.mp hi
      simp [Function.comp, Nat.add_mul_mod_self_left, Nat.mod_eq_of_lt hi']
    rw [hcong, range_filter_eq hx]
    rfl
  simp only [hblock]
  exact (List.map_eq_flatMap (fun q => x + cx * q) (List.range cy)).symm

theorem filter_div_range (cy : Nat) {cx x : Nat} (hx : x < cx) :
    (List.range (cy * cx)).filter (fun l => decide (l / cy % cx = x)) =
      (List.range cy).map (fun q => q + cy * x) := by
  rcases Nat.eq_zero_or_pos cy with rfl | hcy
  · simp
  rw [range_mul_eq cy cx, List.filter_flatMap]
  have hblock : ∀ q, q < cx →
      ((List.range cy).map (fun i => i + cy * q)).filter
        (fun l => decide (l / cy % cx = x)) =
      if q = x then (List.range cy).map (fun i => i + cy * q) else [] := by
    intro q hq
    rw [List.filter_map]
    have hcong : (List.range cy).filter
        ((fun l => decide (l / cy % cx = x)) ∘ fun i => i + cy * q) =
        (List.range cy).filter (fun _ => decide (q = x)) := by
      apply List.filter_congr
      intro i hi
      have hi' : i < cy := List.mem_range.mp hi
      have hdiv : (i + cy * q) / cy = q := by
        rw [Nat.add_mul_div_left _ _ hcy, Nat.div_eq_of_lt hi', Nat.zero_add]
      simp [Function.comp, hdiv, Nat.mod_eq_of_lt hq]
    rw [hcong]
    by_cases hqx : q = x
    · simp [hqx]
    · simp [hqx]
  have hcong₂ : (List.range cx).flatMap (fun q =>
      ((List.range cy).map (fun i => i + cy * q)).filter
        (fun l => decide (l / cy % cx = x))) =
      (List.range cx).flatMap (fun q =>
        if q = x then (List.range cy).map (fun i => i + cy * q) else []) := by
    apply List.flatMap_congr
    intro q hq
    exact hblock q (List.mem_range.mp hq)
  rw [hcong₂, flatMap_single_block hx]

-- Two-variable factors

theorem two_elem_cases {X Y : FinVar} {l : List FinVar} (hn : l.Nodup)
    (hmem : ∀ w, w ∈ l ↔ (w = X ∨ w = Y)) (hne : X ≠ Y) :
    l = [X, Y] ∨ l = [Y, X] := by
  match l with
  | [] =>
    have := (hmem X).mpr (Or.inl rfl)
    cases this
  | [a] =>
    have hX : X = a := by
      have := (hmem X).mpr (Or.inl rfl)
      simpa using this
    have hY : Y = a := by
      have := (hmem Y).mpr (Or.inr rfl)
      simpa using this
    exact absurd (hX.trans hY.symm) hne
  | [a, b] =>
    have hab : a ≠ b := by simpa using (List.nodup_cons.mp hn).1
    have ha := (hmem a).mp (List.mem_cons_self a [b])
    have hb := (hmem b).mp (List.mem_cons_of_mem a (List.mem_cons_self b []))
    rcases ha with rfl | rfl
    · rcases hb with rfl | rfl
      · exact absurd rfl hab
      · exact Or.inl rfl
    · rcases hb with rfl | rfl
      · exact Or.inr rfl
      · exact absurd rfl hab
  | a :: b :: c :: t =>
    have ha := (hmem a).mp (by simp)
    have hb := (hmem b).mp (by simp)
    have hc := (hmem c).mp (by simp)
    simp only [List.nodup_cons, List.mem_cons] at hn
    rcases ha with rfl | rfl <;> rcases hb with rfl | rfl <;>
      rcases hc with rfl | rfl <;> tauto

/-- Assignment binding a single variable. -/
def singleA (X : FinVar) (x : Nat) : FAssign :=
  fun v => if v = X then some x else none

/-- Assignment binding a pair of variables. -/
def pairA (X : FinVar) (x : Nat) (Y : FinVar) (y : Nat) : FAssign :=
  fun v => if v = X then some x else if v = Y then some y else none

theorem aggregate_get {out src : DTable} {dm : List Nat} {s : List Nat}
    (hs : ValidIdx out.shape s) (hlen : out.data.length = tsize out.shape)
    (agg : ℚ → ℚ → ℚ) :
    (DTable.aggregate out src dm agg).get s =
      ((List.range (tsize src.shape)).filter
          (fun l => decide (applyMap dm (unlinIndex src.shape l) = s))).foldl
        (fun acc l => agg acc (src.data.getD l 0))
        (out.data.getD (linIndex out.shape s) 0) := by
  have hlt : linIndex out.shape s < tsize out.shape := linIndex_lt_tsize hs
  unfold DTable.aggregate DTable.get
  simp only
  rw [List.getD_eq_getElem?_getD, List.getElem?_map, hlen,
    List.getElem?_range hlt]
  simp [unlinIndex_linIndex hs]

theorem marginal_two_var {f : TF} {X Y : FinVar} (hf : f.Wf) (hne : X ≠ Y)
    (hargs : ∀ w, w ∈ f.args ↔ (w = X ∨ w = Y)) {x : Nat} (hx : x < X.card) :
    (f.marginal [X]).v (singleA X x) =
      ((List.range Y.card).map (fun y => f.v (pairA X x Y y))).sum := by
  obtain ⟨hshape, hlen, hvi, hargsdom, hnodup⟩ := hf
  have hf' : f.Wf := ⟨hshape, hlen, hvi, hargsdom, hnodup⟩
  have hne' : Y ≠ X := Ne.symm hne
  have hseqmem : ∀ w, w ∈ f.arg_seq ↔ (w = X ∨ w = Y) := fun w =>
    (mem_args_iff_mem_arg_seq hf').symm.trans (hargs w)
  have hseq := two_elem_cases hnodup hseqmem hne
  have hargsnodup : f.args.Nodup := sorted_nodup (wf_args_sorted hf')
  have hargcases := two_elem_cases hargsnodup hargs hne
  have hYargs : Y ∈ f.args := (hargs Y).mpr (Or.inr rfl)
  have hincfalse : includesB [X] f.args = false := by
    rw [Bool.eq_false_iff]
    intro h
    have := (includesB_iff _ _).mp h Y hYargs
    simp at this
    exact hne' this
  have hinter : setIntersect f.args [X] = [X] := by
    rcases hargcases with h | h <;> rw [h] <;> simp [setIntersect, hne']
  have hmarg : f.marginal [X] =
      { TF.ofDomain [X] 0 with
        table_data :=
          DTable.aggregate (TF.ofDomain [X] 0).table_data f.table_data
            (makeDimMap [X] f.var_index) (· + ·) } := by
    rw [TF.marginal]
    unfold TF.collapse
    rw [hincfalse]
    simp only [Bool.false_eq_true, if_false, hinter]
    rfl
  rw [hmarg]
  have hlook : lookupIdx (singleA X x) X = x := by simp [lookupIdx, singleA]
  have hvx : (({ TF.ofDomain [X] 0 with
      table_data :=
        DTable.aggregate (TF.ofDomain [X] 0).table_data f.table_data
          (makeDimMap [X] f.var_index) (· + ·) } : TF)).v (singleA X x) =
      (DTable.aggregate (TF.ofDomain [X] 0).table_data f.table_data
          (makeDimMap [X] f.var_index) (· + ·)).get [x] := by
    unfold TF.v TF.shapeOfAssign
    simp [hlook, TF.ofDomain, TF.initArgs]
  rw [hvx]
  have hvalidx : ValidIdx (TF.ofDomain [X] 0).table_data.shape [x] := by
    exact List.Forall₂.cons hx List.Forall₂.nil
  have hlenout : (TF.ofDomain [X] 0).table_data.data.length =
      tsize (TF.ofDomain [X] 0).table_data.shape := by
    simp [TF.ofDomain, TF.initArgs]
  rw [aggregate_get hvalidx hlenout]
  have hinit : (TF.ofDomain [X] 0).table_data.data.getD
      (linIndex (TF.ofDomain [X] 0).table_data.shape [x]) 0 = 0 := by
    have : linIndex (TF.ofDomain [X] 0).table_data.shape [x] = x := by
      show x + X.card * 0 = x
      omega
    rw [this]
    show (List.replicate (tsize (factorShape [X])) (0 : ℚ)).getD x 0 = 0
    rcases Nat.lt_or_ge x (tsize (factorShape [X])) with h | h
    · rw [List.getD_eq_getElem?_getD, List.getElem?_eq_getElem (by simpa using h)]
      simp
    · rw [List.getD_eq_getElem?_getD, List.getElem?_eq_none (by simpa using h)]
      simp
  rw [hinit]
  rcases hseq with hseqc | hseqc
  · -- arg_seq = [X, Y]
    have hdm : makeDimMap [X] f.var_index = [0] := by
      rw [hvi, hseqc]
      simp [makeDimMap, safeGet, alookup_mkVarIndex (List.mem_cons_self X [Y]),
        List.indexOf_cons_self]
    have hsrcshape : f.table_data.shape = [X.card, Y.card] := by
      rw [hshape, hseqc]; rfl
    have htsz : tsize f.table_data.shape = X.card * Y.card := by
      rw [hsrcshape]
      show X.card * (Y.card * 1) = X.card * Y.card
      ring
    have hcond : ∀ l, (decide (applyMap (makeDimMap [X] f.var_index)
        (unlinIndex f.table_data.shape l) = [x])) =
        (decide (l % X.card = x)) := by
      intro l
      rw [hdm, hsrcshape]
      show decide ([l % X.card] = [x]) = decide (l % X.card = x)
      simp
    have hfiber : (List.range (tsize f.table_data.shape)).filter
        (fun l => decide (applyMap (makeDimMap [X] f.var_index)
          (unlinIndex f.table_data.shape l) = [x])) =
        (List.range Y.card).map (fun q => x + X.card * q) := by
      rw [htsz]
      rw [List.filter_congr (fun l _ => hcond l)]
      exact filter_mod_range Y.card hx
    rw [hfiber, List.foldl_map, foldl_add_map_sum, zero_add]
    apply congrArg List.sum
    apply List.map_congr_left
    intro y hy
    have hvy : f.v (pairA X x Y y) =
        f.table_data.data.getD (x + X.card * y) 0 := by
      unfold TF.v TF.shapeOfAssign DTable.get
      rw [hseqc, hsrcshape]
      have h1 : lookupIdx (pairA X x Y y) X = x := by simp [lookupIdx, pairA]
      have h2 : lookupIdx (pairA X x Y y) Y = y := by
        simp [lookupIdx, pairA, hne']
      show f.table_data.data.getD
        (linIndex [X.card, Y.card]
          [lookupIdx (pairA X x Y y) X, lookupIdx (pairA X x Y y) Y]) 0 = _
      rw [h1, h2]
      show f.table_data.data.getD (x + X.card * (y + Y.card * 0)) 0 = _
      norm_num
    rw [hvy]
  · -- arg_seq = [Y, X]
    have hdm : makeDimMap [X] f.var_index = [1] := by
      rw [hvi, hseqc]
      have hmem : X ∈ [Y, X] := List.mem_cons_of_mem Y (List.mem_cons_self X [])
      simp [makeDimMap, safeGet, alookup_mkVarIndex hmem,
        List.indexOf_cons_ne _ hne', List.indexOf_cons_self]
    have hsrcshape : f.table_data.shape = [Y.card, X.card] := by
      rw [hshape, hseqc]; rfl
    have htsz : tsize f.table_data.shape = Y.card * X.card := by
      rw [hsrcshape]
      show Y.card * (X.card * 1) = Y.card * X.card
      ring
    have hcond : ∀ l, (decide (applyMap (makeDimMap [X] f.var_index)
        (unlinIndex f.table_data.shape l) = [x])) =
        (decide (l / Y.card % X.card = x)) := by
      intro l
      rw [hdm, hsrcshape]
      show decide ([l / Y.card % X.card] = [x]) = decide (l / Y.card % X.card = x)
      simp
    have hfiber : (List.range (tsize f.table_data.shape)).filter
        (fun l => decide (applyMap (makeDimMap [X] f.var_index)
          (unlinIndex f.table_data.shape l) = [x])) =
        (List.range Y.card).map (fun q => q + Y.card * x) := by
      rw [htsz]
      rw [List.filter_congr (fun l _ => hcond l)]
      exact filter_div_range Y.card hx
    rw [hfiber, List.foldl_map, foldl_add_map_sum, zero_add]
    apply congrArg List.sum
    apply List.map_congr_left
    intro y hy
    have hvy : f.v (pairA X x Y y) =
        f.table_data.data.getD (y + Y.card * x) 0 := by
      unfold TF.v TF.shapeOfAssign DTable.get
      rw [hseqc, hsrcshape]
      have h1 : lookupIdx (pairA X x Y y) X = x := by simp [lookupIdx, pairA]
      have h2 : lookupIdx (pairA X x Y y) Y = y := by
        simp [lookupIdx, pairA, hne']
      show f.table_data.data.getD
        (linIndex [Y.card, X.card]
          [lookupIdx (pairA X x Y y) Y, lookupIdx (pairA X x Y y) X]) 0 = _
      rw [h1, h2]
      show f.table_data.data.getD (y + Y.card * (x + X.card * 0)) 0 = _
      norm_num
    rw [hvy]

/-- C3: for a factor over two distinct variables X and Y, the marginal onto
X evaluated at any value x of X is the sum over all values y of Y of
F(x, y). -/
theorem C3_marginal_consistency (f : TF) (X Y : FinVar) (hf : f.Wf)
    (hne : X ≠ Y) (hargs : ∀ w, w ∈ f.args ↔ (w = X ∨ w = Y)) :
    ∀ x, x < X.card →
      (f.marginal [X]).v (singleA X x) =
        ((List.range Y.card).map (fun y => f.v (pairA X x Y y))).sum :=
  fun _ hx => marginal_two_var hf hne hargs hx

/-- Witness for C3 at the claim's concrete example: a factor over two binary
variables with values [1,2,3,4] in linear order; the marginal table over the
first variable is [4, 6], and the theorem instantiates at x = 1 giving
2 + 4 = 6. -/
theorem C3_marginal_consistency_witness :
    (TF.ofVec [⟨0, 2⟩, ⟨1, 2⟩] [1, 2, 3, 4]).Wf ∧
    ((TF.ofVec [⟨0, 2⟩, ⟨1, 2⟩] [1, 2, 3, 4]).marginal
      [⟨0, 2⟩]).table_data.data = [4, 6] ∧
    ((TF.ofVec [⟨0, 2⟩, ⟨1, 2⟩] [1, 2, 3, 4]).marginal [⟨0, 2⟩]).v
        (singleA ⟨0, 2⟩ 1) =
      ((List.range (FinVar.card ⟨1, 2⟩)).map
        (fun y => (TF.ofVec [⟨0, 2⟩, ⟨1, 2⟩] [1, 2, 3, 4]).v
          (pairA ⟨0, 2⟩ 1 ⟨1, 2⟩ y))).sum :=
  ⟨by decide,
   by
    norm_num [TF.marginal, TF.collapse, TF.ofVec, TF.ofDomain, TF.initArgs,
      DTable.aggregate, includesB, setIntersect, domOfList, domInsert, vlt,
      FinVar.key, Nat.pair, makeDimMap, safeGet, alookup, mkVarIndex,
      applyMap, unlinIndex, tsize, factorShape, List.range_succ, DTable.get,
      linIndex, List.enum],
   C3_marginal_consistency (TF.ofVec [⟨0, 2⟩, ⟨1, 2⟩] [1, 2, 3, 4])
    ⟨0, 2⟩ ⟨1, 2⟩ (by decide) (by decide)
    (by
      intro w
      rw [show (TF.ofVec [⟨0, 2⟩, ⟨1, 2⟩] [1, 2, 3, 4]).args =
        [⟨0, 2⟩, ⟨1, 2⟩] from by decide]
      simp)
    1 (by decide)⟩

theorem foldl_add_eq (l : List ℚ) (c : ℚ) : l.foldl (· + ·) c = c + l.sum := by
  induction l generalizing c with
  | nil => simp
  | cons q t ih => simp [ih, add_assoc]

theorem sum_map_div (l : List ℚ) (z : ℚ) :
    (l.map (· / z)).sum = l.sum / z := by
  induction l with
  | nil => simp
  | cons q t ih => simp [ih, add_div]

theorem normConstant_eq_sum (f : TF) :
    f.normConstant = f.table_data.data.sum := by
  rw [TF.normConstant, foldl_add_eq, zero_add]

/-- C5: normalize fails exactly when the sum over all cells is not positive
(and finite; rationals are always finite), in which case only the error is
produced and the factor is untouched (the source throws before mutating);
otherwise it divides every cell by the sum, leaving the argument set and
table shape unchanged and making the cells sum to 1. -/
theorem C5_normalize (f : TF) :
    ((∃ g, f.normalize = Except.ok g) ↔ isPositiveFinite f.normConstant) ∧
    (¬ isPositiveFinite f.normConstant →
      f.normalize = Except.error "factor is not normalizeable") ∧
    (∀ g, f.normalize = Except.ok g →
      g.args = f.args ∧ g.arg_seq = f.arg_seq ∧
      g.table_data.shape = f.table_data.shape ∧
      g.table_data.data = f.table_data.data.map (· / f.normConstant) ∧
      g.normConstant = 1) := by
  by_cases h : isPositiveFinite f.normConstant
  · refine ⟨⟨fun _ => h, fun _ => ⟨_, by rw [TF.normalize, if_pos h]⟩⟩,
      fun hc => absurd h hc, ?_⟩
    intro g hg
    rw [TF.normalize, if_pos h] at hg
    have hgeq := (Except.ok.injEq _ _).mp hg
    subst hgeq
    refine ⟨rfl, rfl, rfl, rfl, ?_⟩
    have hz : f.normConstant ≠ 0 := ne_of_gt h
    show TF.normConstant _ = 1
    rw [normConstant_eq_sum]
    show (f.table_data.data.map (· / f.normConstant)).sum = 1
    rw [sum_map_div, ← normConstant_eq_sum, div_self hz]
  · refine ⟨⟨fun ⟨g, hg⟩ => ?_, fun hc => absurd hc h⟩,
      fun _ => by rw [TF.normalize, if_neg h], ?_⟩
    · rw [TF.normalize, if_neg h] at hg
      cases hg
    · intro g hg
      rw [TF.normalize, if_neg h] at hg
      cases hg

/-- Witness for C5 at a concrete input: a factor with cell sum 4 normalizes
successfully and the result's cells sum to 1. -/
theorem C5_normalize_witness :
    isPositiveFinite (TF.ofVec [⟨0, 2⟩] [1, 3]).normConstant ∧
    ∃ g, (TF.ofVec [⟨0, 2⟩] [1, 3]).normalize = Except.ok g ∧
      g.normConstant = 1 := by
  have hpos : isPositiveFinite (TF.ofVec [⟨0, 2⟩] [1, 3]).normConstant := by
    norm_num [isPositiveFinite, TF.normConstant, TF.ofVec, TF.initArgs]
  obtain ⟨g, hg⟩ := (C5_normalize (TF.ofVec [⟨0, 2⟩] [1, 3])).1.mpr hpos
  exact ⟨hpos, g, hg,
    ((C5_normalize (TF.ofVec [⟨0, 2⟩] [1, 3])).2.2 g hg).2.2.2.2⟩

-- The argument/table synchronization invariant (claim C6)

/-- The synchronization invariant of a table factor as the specification
states it: one table dimension per argument with the argument's arity,
`var_index` the inverse of `arg_seq`, and `args` the set of `arg_seq`'s
elements. -/
def TF.SyncInv (f : TF) : Prop :=
  f.table_data.shape = f.arg_seq.map FinVar.card ∧
  (∀ i (h : i < f.arg_seq.length),
    alookup f.var_index (f.arg_seq.get ⟨i, h⟩) = some i) ∧
  (∀ w, w ∈ f.args ↔ w ∈ f.arg_seq)

theorem wf_syncInv {f : TF} (hf : f.Wf) : f.SyncInv := by
  obtain ⟨hshape, hlen, hvi, hargs, hnodup⟩ := hf
  refine ⟨hshape, ?_, ?_⟩
  · intro i h
    rw [hvi, alookup_mkVarIndex (f.arg_seq.get_mem i h)]
    congr 1
    exact List.indexOf_getElem hnodup i h
  · intro w
    rw [hargs]
    exact mem_domOfList

theorem wf_ofDomain {d : List FinVar} (hd : VSorted d) (c : ℚ) :
    (TF.ofDomain d c).Wf := by
  refine ⟨rfl, by simp [TF.ofDomain, TF.initArgs], rfl,
    (domOfList_of_sorted hd).symm, sorted_nodup hd⟩

theorem wf_ofVec {vs : List FinVar} {values : List ℚ} (hn : vs.Nodup)
    (hlen : values.length = tsize (factorShape vs)) :
    (TF.ofVec vs values).Wf :=
  ⟨rfl, hlen, rfl, rfl, hn⟩

theorem wf_assignFrom (f : TF) {other : TF} (ho : other.Wf) :
    (f.assignFrom other).Wf := ho

theorem mkVarIndex_map (g : FinVar → FinVar) (seq : List FinVar) :
    (mkVarIndex seq).map (fun p => (g p.1, p.2)) = mkVarIndex (seq.map g) := by
  induction seq with
  | nil => rfl
  | cons v vs ih =>
    rw [List.map_cons, mkVarIndex_cons, mkVarIndex_cons, List.map_cons, ← ih,
      List.map_map, List.map_map]
    rfl

theorem wf_substArgs {f : TF} (hf : f.Wf) {m : List (FinVar × FinVar)}
    (hcard : ∀ w ∈ f.arg_seq, (mapGetVar m w).card = w.card)
    (hinj : ∀ w ∈ f.arg_seq, ∀ u ∈ f.arg_seq,
      mapGetVar m w = mapGetVar m u → w = u) :
    (f.substArgs m).Wf := by
  obtain ⟨hshape, hlen, hvi, hargs, hnodup⟩ := hf
  refine ⟨?_, hlen, ?_, ?_, ?_⟩
  · show f.table_data.shape = (f.arg_seq.map (mapGetVar m)).map FinVar.card
    rw [hshape, List.map_map]
    exact List.map_congr_left fun w hw => (hcard w hw).symm
  · show f.var_index.map _ = mkVarIndex (f.arg_seq.map (mapGetVar m))
    rw [hvi, mkVarIndex_map]
  · show substVars f.args m = domOfList (f.arg_seq.map (mapGetVar m))
    rw [substVars]
    refine vsorted_eq_of_mem_iff (sorted_domOfList _) (sorted_domOfList _)
      (fun u => ?_)
    rw [mem_domOfList, mem_domOfList, List.mem_map, List.mem_map]
    constructor
    · rintro ⟨w, hw, rfl⟩
      exact ⟨w, by rwa [hargs, mem_domOfList] at hw, rfl⟩
    · rintro ⟨w, hw, rfl⟩
      exact ⟨w, by rwa [hargs, mem_domOfList], rfl⟩
  · exact List.Nodup.map_on hinj hnodup

theorem wf_restrict {f : TF} (hf : f.Wf) (a : FAssign) :
    (f.restrict a).Wf := by
  unfold TF.restrict
  by_cases h : (f.args.filter (fun v => decide (a v = none))).length =
      f.args.length
  · simpa [h] using hf
  · have hsorted : VSorted (f.args.filter (fun v => decide (a v = none))) :=
      List.Sorted.filter _ (wf_args_sorted hf)
    have hwf := wf_ofDomain hsorted (0 : ℚ)
    obtain ⟨hshape, _, hvi, hargs, hnodup⟩ := hwf
    simp only [h, if_false]
    exact ⟨hshape, by simp [DTable.restrictT, TF.ofDomain, TF.initArgs],
      hvi, hargs, hnodup⟩

theorem wf_collapse {f : TF} (hf : f.Wf) (agg : ℚ → ℚ → ℚ) (iv : ℚ)
    (retained : List FinVar) : (f.collapse agg iv retained).Wf := by
  unfold TF.collapse
  by_cases h : includesB retained f.args = true
  · simpa [h] using hf
  · have hsorted : VSorted (setIntersect f.args retained) :=
      sorted_setIntersect retained (wf_args_sorted hf)
    have hwf := wf_ofDomain hsorted iv
    obtain ⟨hshape, _, hvi, hargs, hnodup⟩ := hwf
    simp only [h, if_false]
    exact ⟨hshape, by simp [DTable.aggregate, TF.ofDomain, TF.initArgs],
      hvi, hargs, hnodup⟩

/-- C6: every operation that mutates the argument set — construction from a
domain, construction from a sequence and values, assignment, argument
substitution, restriction, combine and collapse — keeps the table shape, the
argument sequence, the variable-index map and the argument set
synchronized. -/
theorem C6_argument_table_sync (d : List FinVar) (hd : VSorted d) (c : ℚ)
    (vs : List FinVar) (values : List ℚ) (hvs : vs.Nodup)
    (hvl : values.length = tsize (factorShape vs))
    (f other y : TF) (hf : f.Wf) (ho : other.Wf) (hy : y.Wf)
    (m : List (FinVar × FinVar))
    (hcard : ∀ w ∈ f.arg_seq, (mapGetVar m w).card = w.card)
    (hinj : ∀ w ∈ f.arg_seq, ∀ u ∈ f.arg_seq,
      mapGetVar m w = mapGetVar m u → w = u)
    (a : FAssign) (op agg : ℚ → ℚ → ℚ) (iv : ℚ)
    (retained : List FinVar) :
    (TF.ofDomain d c).SyncInv ∧
    (TF.ofVec vs values).SyncInv ∧
    (f.assignFrom other).SyncInv ∧
    (f.substArgs m).SyncInv ∧
    (f.restrict a).SyncInv ∧
    (TF.combine f y op).SyncInv ∧
    (f.collapse agg iv retained).SyncInv :=
  ⟨wf_syncInv (wf_ofDomain hd c), wf_syncInv (wf_ofVec hvs hvl),
   wf_syncInv (wf_assignFrom f ho), wf_syncInv (wf_substArgs hf hcard hinj),
   wf_syncInv (wf_restrict hf a), wf_syncInv (combine_wf f y op),
   wf_syncInv (wf_collapse hf agg iv retained)⟩

/-- Witness for C6 at concrete inputs: binary factors over one and two
variables, an arity-preserving injective renaming, a restriction binding
one variable, and a sum collapse. -/
theorem C6_argument_table_sync_witness :
    VSorted [(⟨0, 2⟩ : FinVar)] ∧
    ((TF.ofDomain [⟨0, 2⟩] 1).SyncInv ∧
     (TF.ofVec [⟨0, 2⟩, ⟨1, 2⟩] [1, 2, 3, 4]).SyncInv ∧
     ((TF.ofVec [⟨0, 2⟩] [1, 2]).assignFrom
        (TF.ofVec [⟨0, 2⟩, ⟨1, 2⟩] [1, 2, 3, 4])).SyncInv ∧
     ((TF.ofVec [⟨0, 2⟩, ⟨1, 2⟩] [1, 2, 3, 4]).substArgs
        [(⟨0, 2⟩, ⟨5, 2⟩), (⟨1, 2⟩, ⟨4, 2⟩)]).SyncInv ∧
     ((TF.ofVec [⟨0, 2⟩, ⟨1, 2⟩] [1, 2, 3, 4]).restrict
        (singleA ⟨1, 2⟩ 0)).SyncInv ∧
     (TF.combine (TF.ofVec [⟨0, 2⟩, ⟨1, 2⟩] [1, 2, 3, 4])
        (TF.ofVec [⟨1, 2⟩] [1, 2]) (· + ·)).SyncInv ∧
     ((TF.ofVec [⟨0, 2⟩, ⟨1, 2⟩] [1, 2, 3, 4]).collapse (· + ·) 0
        [⟨0, 2⟩]).SyncInv) :=
  ⟨by decide,
   C6_argument_table_sync [⟨0, 2⟩] (by decide) 1 [⟨0, 2⟩, ⟨1, 2⟩] [1, 2, 3, 4]
     (by decide) (by decide) (TF.ofVec [⟨0, 2⟩, ⟨1, 2⟩] [1, 2, 3, 4])
     (TF.ofVec [⟨0, 2⟩, ⟨1, 2⟩] [1, 2, 3, 4]) (TF.ofVec [⟨1, 2⟩] [1, 2])
     (by decide) (by decide) (by decide)
     [(⟨0, 2⟩, ⟨5, 2⟩), (⟨1, 2⟩, ⟨4, 2⟩)] (by decide) (by decide)
     (singleA ⟨1, 2⟩ 0) (· + ·) (· + ·) 0 [⟨0, 2⟩]⟩

-- Unroll and roll-up (claims C7 and C8)

theorem shape_assignFromShape {seq : List FinVar} {s : List Nat}
    (hn : seq.Nodup) (hlen : s.length = seq.length) :
    seq.map (lookupIdx (assignFromShape seq s)) = s := by
  apply List.ext_getElem (by simp [hlen])
  intro i h₁ h₂
  rw [List.getElem_map]
  have hmem : seq[i] ∈ seq := List.getElem_mem _
  have hidx : seq.indexOf seq[i] = i :=
    List.indexOf_getElem hn i (by simpa using h₁)
  rw [lookupIdx, assignFromShape, alookup_mkVarIndex hmem, hidx]
  simp only [Option.map_some', Option.getD_some]
  rw [List.getD_eq_getElem?_getD, List.getElem?_eq_getElem h₂]
  rfl

/-- C7 counterexample: for the factor over two binary variables with values
[1,2,3,4], the claim's most-significant-first correspondence predicts the
unrolled factor's value at index 2 = 2·a + b for (a,b) = (1,0) to be
F(1,0) = 2, but the unrolled factor holds 3 there. -/
theorem C7_unroll_msb_counterexample :
    ((TF.ofVec [⟨0, 2⟩, ⟨1, 2⟩] [1, 2, 3, 4]).unroll 9).2.v
        (singleA ((TF.ofVec [⟨0, 2⟩, ⟨1, 2⟩] [1, 2, 3, 4]).unroll 9).1 2) = 3 ∧
    (TF.ofVec [⟨0, 2⟩, ⟨1, 2⟩] [1, 2, 3, 4]).v (pairA ⟨0, 2⟩ 1 ⟨1, 2⟩ 0) = 2 ∧
    (3 : ℚ) ≠ 2 := by
  refine ⟨?_, ?_, by norm_num⟩
  · show ([(1 : ℚ), 2, 3, 4].getD (linIndex [4]
      [lookupIdx (singleA ⟨9, 4⟩ 2) ⟨9, 4⟩]) 0) = 3
    rw [show lookupIdx (singleA ⟨9, 4⟩ 2) ⟨9, 4⟩ = 2 from by
      simp [lookupIdx, singleA]]
    rfl
  · show ([(1 : ℚ), 2, 3, 4].getD (linIndex [2, 2]
      [lookupIdx (pairA ⟨0, 2⟩ 1 ⟨1, 2⟩ 0) ⟨0, 2⟩,
       lookupIdx (pairA ⟨0, 2⟩ 1 ⟨1, 2⟩ 0) ⟨1, 2⟩]) 0) = 2
    rw [show lookupIdx (pairA ⟨0, 2⟩ 1 ⟨1, 2⟩ 0) ⟨0, 2⟩ = 1 from by
      simp [lookupIdx, pairA],
      show lookupIdx (pairA ⟨0, 2⟩ 1 ⟨1, 2⟩ 0) ⟨1, 2⟩ = 0 from by
      simp [lookupIdx, pairA]]
    rfl

/-- C7 as amended: unroll copies the flat buffer, so the value
correspondence is the table-storage mixed-radix encoding in which the FIRST
listed variable is the least-significant (fastest-varying) digit: the
unrolled factor at linear index `linIndex(shape, is)` equals the original
factor at the assignment with coordinates `is`. -/
theorem C7_unroll_lsb_correspondence (f : TF) (hf : f.Wf) (freshId : Nat)
    (s : List Nat) (hv : ValidIdx f.table_data.shape s) :
    (f.unroll freshId).2.v
        (singleA (f.unroll freshId).1 (linIndex f.table_data.shape s)) =
      f.v (assignFromShape f.arg_seq s) := by
  obtain ⟨hshape, hlen, hvi, hargs, hnodup⟩ := hf
  have hslen : s.length = f.arg_seq.length := by
    have := List.Forall₂.length_eq hv
    rw [hshape] at this
    simpa [factorShape] using this
  have hlhs : (f.unroll freshId).2.v
      (singleA (f.unroll freshId).1 (linIndex f.table_data.shape s)) =
      f.table_data.data.getD (linIndex f.table_data.shape s) 0 := by
    unfold TF.unroll TF.v TF.shapeOfAssign DTable.get TF.ofVec TF.initArgs
    simp only
    rw [List.map_cons, List.map_nil,
      show lookupIdx (singleA _ (linIndex f.table_data.shape s))
        ⟨freshId, f.arg_seq.foldr (fun v acc => v.card * acc) 1⟩ =
        linIndex f.table_data.shape s from by simp [lookupIdx, singleA]]
    rfl
  rw [hlhs]
  unfold TF.v TF.shapeOfAssign DTable.get
  rw [shape_assignFromShape hnodup hslen]

/-- Witness for C7's amended statement at a concrete input: the unrolled
factor at linear index 1 + 2·1 = 3 of coordinates (1,1) equals the original
value 4. -/
theorem C7_unroll_lsb_correspondence_witness :
    (TF.ofVec [⟨0, 2⟩, ⟨1, 2⟩] [1, 2, 3, 4]).Wf ∧
    ValidIdx (TF.ofVec [⟨0, 2⟩, ⟨1, 2⟩] [1, 2, 3, 4]).table_data.shape
      [1, 1] ∧
    ((TF.ofVec [⟨0, 2⟩, ⟨1, 2⟩] [1, 2, 3, 4]).unroll 9).2.v
        (singleA ((TF.ofVec [⟨0, 2⟩, ⟨1, 2⟩] [1, 2, 3, 4]).unroll 9).1
          (linIndex (TF.ofVec [⟨0, 2⟩, ⟨1, 2⟩] [1, 2, 3, 4]).table_data.shape
            [1, 1])) =
      (TF.ofVec [⟨0, 2⟩, ⟨1, 2⟩] [1, 2, 3, 4]).v
        (assignFromShape (TF.ofVec [⟨0, 2⟩, ⟨1, 2⟩] [1, 2, 3, 4]).arg_seq
          [1, 1]) :=
  ⟨by decide, by decide,
   C7_unroll_lsb_correspondence _ (by decide) 9 [1, 1] (by decide)⟩

/-- C8: rolling the unrolled factor back up over the original argument list
restores the factor exactly. -/
theorem C8_unroll_rollup_roundtrip (f : TF) (hf : f.Wf) (freshId : Nat) :
    (f.unroll freshId).2.rollUp f.arg_seq = f := by
  obtain ⟨hshape, hlen, hvi, hargs, hnodup⟩ := hf
  show TF.ofVec f.arg_seq f.table_data.data = f
  cases f with
  | mk args vi seq td =>
    cases td with
    | mk shape data =>
      have hshape' : shape = factorShape seq := hshape
      have hvi' : vi = mkVarIndex seq := hvi
      have hargs' : args = domOfList seq := hargs
      subst hshape'
      subst hvi'
      subst hargs'
      rfl

/-- Witness for C8 at a concrete input: the two-binary-variable factor with
values [1,2,3,4] survives the unroll/roll-up round trip. -/
theorem C8_unroll_rollup_roundtrip_witness :
    (TF.ofVec [⟨0, 2⟩, ⟨1, 2⟩] [1, 2, 3, 4]).Wf ∧
    ((TF.ofVec [⟨0, 2⟩, ⟨1, 2⟩] [1, 2, 3, 4]).unroll 7).2.rollUp
        (TF.ofVec [⟨0, 2⟩, ⟨1, 2⟩] [1, 2, 3, 4]).arg_seq =
      TF.ofVec [⟨0, 2⟩, ⟨1, 2⟩] [1, 2, 3, 4] :=
  ⟨by decide, C8_unroll_rollup_roundtrip _ (by decide) 7⟩

-- table_crf_factor (claim C9)

/-- Scalar division of a factor (`f /= k`): every cell divided by `k`
through the safe-divide functor. -/
def TF.divScalar (f : TF) (k : ℚ) : TF :=
  { f with table_data :=
      ⟨f.table_data.shape, f.table_data.data.map (fun x => safeDivides x k)⟩ }

/-- Modelled from the spec: `elem_square_root` applies an elementwise square
root; the square root itself is kept abstract (`sqrtFn`), since floating
point square roots have no exact rational counterpart. -/
def TF.elemSquareRoot (f : TF) (sqrtFn : ℚ → ℚ) : TF :=
  { f with table_data :=
      ⟨f.table_data.shape, f.table_data.data.map sqrtFn⟩ }

/-- The fragment of `table_crf_factor` that `kth_root` touches: the
underlying table factor and the log-space flag. -/
structure TCF where
  f : TF
  log_space : Bool
deriving Repr

/-- `table_crf_factor::square_root()`: divide by 2 in log space, else an
elementwise square root. -/
def TCF.square_root (sqrtFn : ℚ → ℚ) (c : TCF) : TCF :=
  if c.log_space then { c with f := c.f.divScalar 2 }
  else { c with f := c.f.elemSquareRoot sqrtFn }

/-- `table_crf_factor::kth_root(k)` (precondition `k > 0` asserted): divide
by `k` in log space; otherwise the source applies `elem_square_root`
regardless of `k` (marked `TODO: bug`). -/
def TCF.kth_root (sqrtFn : ℚ → ℚ) (c : TCF) (k : ℚ) : TCF :=
  if c.log_space then { c with f := c.f.divScalar k }
  else { c with f := c.f.elemSquareRoot sqrtFn }

/-- C9: for `k > 0`, `kth_root` divides every value by `k` when the factor
is stored in log space, and otherwise applies the elementwise square root
regardless of `k`, coinciding with `square_root` (the source's
`TODO: bug`). -/
theorem C9_kth_root_behavior (sqrtFn : ℚ → ℚ) (c : TCF) (k : ℚ)
    (hk : 0 < k) :
    (c.log_space = true →
      (TCF.kth_root sqrtFn c k).f.table_data.data =
        c.f.table_data.data.map (fun x => safeDivides x k)) ∧
    (c.log_space = false →
      TCF.kth_root sqrtFn c k = TCF.square_root sqrtFn c) := by
  constructor
  · intro hls
    rw [TCF.kth_root, if_pos hls]
    rfl
  · intro hls
    rw [TCF.kth_root, TCF.square_root, hls]
    simp

/-- Witness for C9 at a concrete input: a non-log-space factor's third root
equals its square root, with the square root kept abstract as the identity
function. -/
theorem C9_kth_root_behavior_witness :
    (0 : ℚ) < 3 ∧
    (TCF.kth_root (fun x => x) ⟨TF.ofVec [⟨0, 2⟩] [4, 9], false⟩ 3 =
      TCF.square_root (fun x => x) ⟨TF.ofVec [⟨0, 2⟩] [4, 9], false⟩) :=
  ⟨by norm_num,
   (C9_kth_root_behavior (fun x => x) ⟨TF.ofVec [⟨0, 2⟩] [4, 9], false⟩ 3
     (by norm_num)).2 rfl⟩

-- Sampling (claim C10)

theorem sampleWalk_isSome {seq : List FinVar} {v : FinVar} (hv : v ∈ seq)
    (cells : List (List Nat × ℚ)) (r : ℚ) :
    (sampleWalk seq cells r v).isSome := by
  induction cells generalizing r with
  | nil =>
    simp [sampleWalk, lastAssign, hv]
  | cons c rest ih =>
    rw [sampleWalk]
    by_cases h : r < c.2
    · simp only [h, if_pos]
      have : alookup (mkVarIndex seq) v = some (seq.indexOf v) :=
        alookup_mkVarIndex hv
      simp [assignFromShape, this]
    · simp only [h, if_false]
      exact ih (r - c.2)

theorem sampleWalk_exhaust (seq : List FinVar)
    (cells : List (List Nat × ℚ)) (r : ℚ)
    (hpos : ∀ c ∈ cells, 0 ≤ c.2)
    (hsum : (cells.map Prod.snd).sum ≤ r) :
    sampleWalk seq cells r = lastAssign seq := by
  induction cells generalizing r with
  | nil => rfl
  | cons c rest ih =>
    have hc : 0 ≤ c.2 := hpos c (List.mem_cons_self c rest)
    have hrest : 0 ≤ (rest.map Prod.snd).sum :=
      List.sum_nonneg (by
        intro q hq
        obtain ⟨p, hp, rfl⟩ := List.mem_map.mp hq
        exact hpos p (List.mem_cons_of_mem c hp))
    have hsum' : c.2 + (rest.map Prod.snd).sum ≤ r := by
      simpa using hsum
    have hnotlt : ¬ r < c.2 := by
      intro hlt
      nlinarith
    rw [sampleWalk, if_neg hnotlt]
    apply ih
    · intro p hp
      exact hpos p (List.mem_cons_of_mem c hp)
    · linarith

theorem map_getD_range (l : List ℚ) :
    (List.range l.length).map (fun i => l.getD i 0) = l := by
  apply List.ext_getElem (by simp)
  intro i h₁ h₂
  rw [List.getElem_map, List.getElem_range]
  rw [List.getD_eq_getElem?_getD, List.getElem?_eq_getElem h₂]
  rfl

/-- C10: sample is total and returns a complete assignment over the
factor's arguments; walking the cells in linear order, it returns the first
cell's assignment once the drawn number falls below the cell value, and if
the walk exhausts all cells (in particular whenever the nonnegative cell
values sum to at most the drawn number), it returns the deterministic
fallback mapping every argument variable to its last value `size() - 1`. -/
theorem C10_sample_total_fallback (f : TF) (hf : f.Wf) (r : ℚ) :
    (∀ v ∈ f.arg_seq, (f.sample r v).isSome) ∧
    (∀ v ∈ f.arg_seq, lastAssign f.arg_seq v = some (v.card - 1)) ∧
    ((∀ q ∈ f.table_data.data, 0 ≤ q) → f.table_data.data.sum ≤ r →
      f.sample r = lastAssign f.arg_seq) := by
  obtain ⟨hshape, hlen, hvi, hargs, hnodup⟩ := hf
  refine ⟨fun v hv => sampleWalk_isSome hv _ r,
    fun v hv => by simp [lastAssign, hv], fun hpos hsum => ?_⟩
  apply sampleWalk_exhaust
  · intro c hc
    obtain ⟨l, hl, rfl⟩ := List.mem_map.mp hc
    have hl' : l < f.table_data.data.length := by
      rw [hlen]; exact List.mem_range.mp hl
    show 0 ≤ f.table_data.data.getD l 0
    rw [List.getD_eq_getElem?_getD, List.getElem?_eq_getElem hl']
    exact hpos _ (List.getElem_mem hl')
  · rw [List.map_map]
    have hmaps : ((List.range (tsize f.table_data.shape)).map
        (Prod.snd ∘ fun l => (unlinIndex f.table_data.shape l,
          f.table_data.data.getD l 0))) =
        (List.range f.table_data.data.length).map
          (fun l => f.table_data.data.getD l 0) := by
      rw [hlen]
      rfl
    rw [hmaps, map_getD_range]
    exact hsum

/-- Witness for C10 at a concrete input: with cell values [0, 1] and drawn
number 2, the walk exhausts the table and the binary argument is mapped to
its last value 1. -/
theorem C10_sample_total_fallback_witness :
    (TF.ofVec [⟨0, 2⟩] [0, 1]).Wf ∧
    (∀ q ∈ (TF.ofVec [⟨0, 2⟩] [0, 1]).table_data.data, 0 ≤ q) ∧
    (TF.ofVec [⟨0, 2⟩] [0, 1]).table_data.data.sum ≤ 2 ∧
    (TF.ofVec [⟨0, 2⟩] [0, 1]).sample 2 =
      lastAssign (TF.ofVec [⟨0, 2⟩] [0, 1]).arg_seq := by
  have hwf : (TF.ofVec [⟨0, 2⟩] [0, 1]).Wf := by decide
  have hpos : ∀ q ∈ (TF.ofVec [⟨0, 2⟩] [0, 1]).table_data.data, 0 ≤ q := by
    intro q hq
    have : q = 0 ∨ q = 1 := by simpa [TF.ofVec, TF.initArgs] using hq
    rcases this with rfl | rfl <;> norm_num
  have hsum : (TF.ofVec [⟨0, 2⟩] [0, 1]).table_data.data.sum ≤ 2 := by
    norm_num [TF.ofVec, TF.initArgs]
  exact ⟨hwf, hpos, hsum,
    (C10_sample_total_fallback (TF.ofVec [⟨0, 2⟩] [0, 1]) hwf 2).2.2 hpos hsum⟩

-- Junction-tree calibration (claim C1).  None of the inference sources
-- (junction_tree_inference.hpp, variable_elimination.hpp, the junction tree
-- and markov network headers) are among the provided files — only their
-- test is — so this whole subsystem is modelled from the specification,
-- sections 4.4 and 4.5, over semantic factors: a domain together with a
-- rational-valued function of assignments.

/-- Point update of an assignment. -/
def updateA (b : FAssign) (v : FinVar) (k : Nat) : FAssign :=
  fun w => if w = v then some k else b w

/-- All assignments over a list of variables (each bound to a value below
its arity; everything else unbound). -/
def allAssign : List FinVar → List FAssign
  | [] => [fun _ => none]
  | v :: vs =>
    (allAssign vs).flatMap (fun b => (List.range v.card).map (fun k => updateA b v k))

/-- Override of an assignment by a partial assignment: `b` wins where
bound, `a` elsewhere. -/
def overrideA (a b : FAssign) : FAssign :=
  fun w => match b w with
  | some k => some k
  | none => a w

/-- Brute-force elimination: the sum of `g` over all joint values of the
variables in `d`, every other variable read from `a`. -/
def sumOver (d : List FinVar) (g : FAssign → ℚ) (a : FAssign) : ℚ :=
  ((allAssign d).map (fun b => g (overrideA a b))).sum

/-- A value function reads only the listed variables. -/
def DependsOnly (g : FAssign → ℚ) (d : List FinVar) : Prop :=
  ∀ a b : FAssign, (∀ v ∈ d, a v = b v) → g a = g b

theorem allAssign_unbound {d : List FinVar} {b : FAssign}
    (hb : b ∈ allAssign d) {w : FinVar} (hw : w ∉ d) : b w = none := by
  induction d generalizing b with
  | nil =>
    rw [allAssign] at hb
    have hb' := List.mem_singleton.mp hb
    subst hb'
    rfl
  | cons v vs ih =>
    rw [allAssign] at hb
    obtain ⟨b₀, hb₀, hmem⟩ := List.mem_flatMap.mp hb
    obtain ⟨k, _, rfl⟩ := List.mem_map.mp hmem
    have hwv : w ≠ v := fun h => hw (h ▸ List.mem_cons_self v vs)
    rw [updateA, if_neg hwv]
    exact ih hb₀ (fun h => hw (List.mem_cons_of_mem v h))

theorem allAssign_bound {d : List FinVar} {b : FAssign}
    (hb : b ∈ allAssign d) {v : FinVar} (hv : v ∈ d) (hn : d.Nodup) :
    ∃ k, b v = some k ∧ k < v.card := by
  induction d generalizing b with
  | nil => cases hv
  | cons w ws ih =>
    rw [allAssign] at hb
    obtain ⟨b₀, hb₀, hmem⟩ := List.mem_flatMap.mp hb
    obtain ⟨k, hk, rfl⟩ := List.mem_map.mp hmem
    have hk' : k < w.card := List.mem_range.mp hk
    rcases List.mem_cons.mp hv with rfl | hv'
    · exact ⟨k, by rw [updateA, if_pos rfl], hk'⟩
    · have hvw : v ≠ w := by
        rintro rfl
        exact (List.nodup_cons.mp hn).1 hv'
      obtain ⟨j, hj, hjlt⟩ := ih hb₀ hv' (List.nodup_cons.mp hn).2
      exact ⟨j, by rw [updateA, if_neg hvw]; exact hj, hjlt⟩

theorem overrideA_unbound {d : List FinVar} {b : FAssign}
    (hb : b ∈ allAssign d) (a : FAssign) {w : FinVar} (hw : w ∉ d) :
    overrideA a b w = a w := by
  rw [overrideA, allAssign_unbound hb hw]

theorem sumOver_nil (g : FAssign → ℚ) (a : FAssign) : sumOver [] g a = g a := by
  have hov : overrideA a (fun _ => none) = a := by
    funext w
    rfl
  simp [sumOver, allAssign, hov]

theorem sum_map_flatMap {α β : Type} (l : List α) (f : α → List β)
    (g : β → ℚ) :
    ((l.flatMap f).map g).sum = (l.map (fun x => ((f x).map g).sum)).sum := by
  induction l with
  | nil => rfl
  | cons x t ih => simp [List.flatMap_cons, ih]

theorem sumOver_cons {v : FinVar} {d : List FinVar} (hv : v ∉ d)
    (g : FAssign → ℚ) (a : FAssign) :
    sumOver (v :: d) g a =
      sumOver d
        (fun a' => ((List.range v.card).map (fun k => g (updateA a' v k))).sum)
        a := by
  unfold sumOver
  rw [allAssign, sum_map_flatMap]
  apply congrArg List.sum
  apply List.map_congr_left
  intro b hb
  rw [List.map_map]
  apply congrArg List.sum
  apply List.map_congr_left
  intro k _
  show g (overrideA a (updateA b v k)) = g (updateA (overrideA a b) v k)
  apply congrArg
  funext w
  by_cases hwv : w = v
  · subst hwv
    rw [overrideA, updateA, if_pos rfl, updateA, if_pos rfl]
  · rw [overrideA, updateA, if_neg hwv, updateA, if_neg hwv, overrideA]

theorem list_sum_swap {α β : Type} (l : List α) (m : List β)
    (F : α → β → ℚ) :
    (l.map (fun x => (m.map (F x)).sum)).sum =
      (m.map (fun y => (l.map (fun x => F x y)).sum)).sum := by
  induction l with
  | nil => simp
  | cons x t ih =>
    simp only [List.map_cons, List.sum_cons, ih]
    rw [← List.sum_map_add]

/-- One-variable summation layer. -/
def innerSum (v : FinVar) (g : FAssign → ℚ) : FAssign → ℚ :=
  fun a => ((List.range v.card).map (fun k => g (updateA a v k))).sum

theorem sumOver_cons' {v : FinVar} {d : List FinVar} (hv : v ∉ d)
    (g : FAssign → ℚ) (a : FAssign) :
    sumOver (v :: d) g a = sumOver d (innerSum v g) a :=
  sumOver_cons hv g a

theorem overrideA_updateA_comm {v : FinVar} {d : List FinVar} {b : FAssign}
    (hb : b ∈ allAssign d) (hv : v ∉ d) (a : FAssign) (k : Nat) :
    updateA (overrideA a b) v k = overrideA (updateA a v k) b := by
  funext w
  by_cases hwv : w = v
  · subst hwv
    rw [updateA, if_pos rfl, overrideA, allAssign_unbound hb hv, updateA,
      if_pos rfl]
  · rw [updateA, if_neg hwv, overrideA, overrideA]
    cases b w with
    | none => rw [updateA, if_neg hwv]
    | some j => rfl

theorem sumOver_innerSum_swap {v : FinVar} {d : List FinVar} (hv : v ∉ d)
    (g : FAssign → ℚ) (a : FAssign) :
    sumOver d (innerSum v g) a = innerSum v (sumOver d g) a := by
  unfold sumOver innerSum
  rw [list_sum_swap]
  apply congrArg List.sum
  apply List.map_congr_left
  intro k _
  apply congrArg List.sum
  apply List.map_congr_left
  intro b hb
  rw [overrideA_updateA_comm hb hv]

theorem updateA_comm {v w : FinVar} (hvw : v ≠ w) (a : FAssign)
    (k j : Nat) :
    updateA (updateA a v k) w j = updateA (updateA a w j) v k := by
  funext u
  by_cases huw : u = w
  · subst huw
    rw [updateA, if_pos rfl, updateA, if_neg (Ne.symm hvw), updateA,
      if_pos rfl]
  · by_cases huv : u = v
    · subst huv
      rw [updateA, if_neg huw, updateA, if_pos rfl, updateA, if_pos rfl]
    · rw [updateA, if_neg huw, updateA, if_neg huv, updateA, if_neg huv,
        updateA, if_neg huw]

theorem innerSum_comm {v w : FinVar} (hvw : v ≠ w) (g : FAssign → ℚ) :
    innerSum v (innerSum w g) = innerSum w (innerSum v g) := by
  funext a
  unfold innerSum
  rw [list_sum_swap]
  apply congrArg List.sum
  apply List.map_congr_left
  intro j _
  apply congrArg List.sum
  apply List.map_congr_left
  intro k _
  rw [updateA_comm hvw]

theorem sumOver_append {d₁ d₂ : List FinVar} (hn : (d₁ ++ d₂).Nodup)
    (g : FAssign → ℚ) (a : FAssign) :
    sumOver (d₁ ++ d₂) g a = sumOver d₁ (fun a' => sumOver d₂ g a') a := by
  induction d₁ generalizing g a with
  | nil =>
    rw [List.nil_append, sumOver_nil]
  | cons v t ih =>
    have hn' : (t ++ d₂).Nodup := (List.nodup_cons.mp hn).2
    have hvt : v ∉ t ++ d₂ := (List.nodup_cons.mp hn).1
    have hvd₂ : v ∉ d₂ := fun h => hvt (List.mem_append.mpr (Or.inr h))
    have hvt' : v ∉ t := fun h => hvt (List.mem_append.mpr (Or.inl h))
    calc sumOver (v :: t ++ d₂) g a
        = sumOver (t ++ d₂) (innerSum v g) a := sumOver_cons' hvt g a
      _ = sumOver t (fun a' => sumOver d₂ (innerSum v g) a') a := ih hn' _ a
      _ = sumOver t (innerSum v (fun a' => sumOver d₂ g a')) a := by
          apply congrArg (fun h => sumOver t h a)
          funext a₀
          rw [sumOver_innerSum_swap hvd₂]
      _ = sumOver (v :: t) (fun a' => sumOver d₂ g a') a :=
          (sumOver_cons' hvt' _ a).symm

theorem sumOver_mul_left {d dep : List FinVar} {g₁ g₂ : FAssign → ℚ}
    (hg₁ : DependsOnly g₁ dep) (hdisj : ∀ v ∈ d, v ∉ dep) (a : FAssign) :
    sumOver d (fun a' => g₁ a' * g₂ a') a = g₁ a * sumOver d g₂ a := by
  unfold sumOver
  have hmc : (allAssign d).map (fun b => (fun a' => g₁ a' * g₂ a') (overrideA a b)) =
      (allAssign d).map (fun b => g₁ a * g₂ (overrideA a b)) := by
    apply List.map_congr_left
    intro b hb
    show g₁ (overrideA a b) * g₂ (overrideA a b) = g₁ a * g₂ (overrideA a b)
    have hfix : g₁ (overrideA a b) = g₁ a := by
      apply hg₁
      intro w hw
      exact overrideA_unbound hb a (fun hwd => hdisj w hwd hw)
    rw [hfix]
  rw [hmc]
  exact List.sum_map_mul_left _ _ _

theorem sumOver_extract {v : FinVar} {d : List FinVar} (hv : v ∈ d)
    (hn : d.Nodup) (g : FAssign → ℚ) (a : FAssign) :
    sumOver d g a = sumOver (v :: d.erase v) g a := by
  induction d generalizing g a with
  | nil => cases hv
  | cons w t ih =>
    by_cases hwv : w = v
    · subst hwv
      rw [List.erase_cons_head]
    · have hv' : v ∈ t := by
        rcases List.mem_cons.mp hv with h | h
        · exact absurd h.symm hwv
        · exact h
      have hwt : w ∉ t := (List.nodup_cons.mp hn).1
      have hnt : t.Nodup := (List.nodup_cons.mp hn).2
      have hvw : v ≠ w := fun h => hwv h.symm
      have hvet : v ∉ t.erase v := fun h => ((hnt.mem_erase_iff).mp h).1 rfl
      have hwet : w ∉ t.erase v := fun h => hwt (List.mem_of_mem_erase h)
      have hvwe : v ∉ w :: t.erase v := by
        intro h
        rcases List.mem_cons.mp h with h' | h'
        · exact hvw h'
        · exact hvet h'
      have herase : (w :: t).erase v = w :: t.erase v :=
        List.erase_cons_tail (by simp [hwv])
      calc sumOver (w :: t) g a
          = sumOver t (innerSum w g) a := sumOver_cons' hwt g a
        _ = sumOver (v :: t.erase v) (innerSum w g) a := ih hv' hnt _ a
        _ = sumOver (t.erase v) (innerSum v (innerSum w g)) a :=
            sumOver_cons' hvet _ a
        _ = sumOver (t.erase v) (innerSum w (innerSum v g)) a := by
            rw [innerSum_comm hvw]
        _ = sumOver (w :: t.erase v) (innerSum v g) a :=
            (sumOver_cons' hwet _ a).symm
        _ = sumOver (v :: (w :: t.erase v)) g a :=
            (sumOver_cons' hvwe _ a).symm
        _ = sumOver (v :: (w :: t).erase v) g a := by rw [herase]

theorem sumOver_set_inv {d : List FinVar} :
    ∀ {e : List FinVar}, d.Nodup → e.Nodup → (∀ w, w ∈ d ↔ w ∈ e) →
    ∀ (g : FAssign → ℚ) (a : FAssign), sumOver d g a = sumOver e g a := by
  induction d with
  | nil =>
    intro e _ _ hmem g a
    have he : e = [] := by
      apply List.eq_nil_iff_forall_not_mem.mpr
      intro w hw
      exact absurd ((hmem w).mpr hw) (List.not_mem_nil w)
    subst he
    rfl
  | cons v t ih =>
    intro e hnd hne hmem g a
    have hvt : v ∉ t := (List.nodup_cons.mp hnd).1
    have hnt : t.Nodup := (List.nodup_cons.mp hnd).2
    have hve : v ∈ e := (hmem v).mp (List.mem_cons_self v t)
    have hvee : v ∉ e.erase v := fun h => ((hne.mem_erase_iff).mp h).1 rfl
    have hnee : (e.erase v).Nodup := hne.erase v
    have hmem' : ∀ w, w ∈ t ↔ w ∈ e.erase v := by
      intro w
      rw [hne.mem_erase_iff]
      constructor
      · intro hw
        refine ⟨fun hwv => hvt (hwv ▸ hw), (hmem w).mp (List.mem_cons_of_mem v hw)⟩
      · rintro ⟨hwv, hwe⟩
        rcases List.mem_cons.mp ((hmem w).mpr hwe) with h | h
        · exact absurd h hwv
        · exact h
    rw [sumOver_extract hve hne g a, sumOver_cons' hvt, sumOver_cons' hvee]
    exact ih hnt hnee hmem' _ a

theorem allAssign_isSome {d : List FinVar} {b : FAssign}
    (hb : b ∈ allAssign d) {v : FinVar} (hv : v ∈ d) : (b v).isSome := by
  induction d generalizing b with
  | nil => cases hv
  | cons w ws ih =>
    rw [allAssign] at hb
    obtain ⟨b₀, hb₀, hmem⟩ := List.mem_flatMap.mp hb
    obtain ⟨k, _, rfl⟩ := List.mem_map.mp hmem
    by_cases hvw : v = w
    · subst hvw
      rw [updateA, if_pos rfl]
      rfl
    · have hv' : v ∈ ws := by
        rcases List.mem_cons.mp hv with h | h
        · exact absurd h hvw
        · exact h
      rw [updateA, if_neg hvw]
      exact ih hb₀ hv'

theorem sumOver_congr_outside {E S : List FinVar} {g : FAssign → ℚ}
    (hg : DependsOnly g S) {a b : FAssign}
    (h : ∀ v ∈ S, v ∈ E ∨ a v = b v) :
    sumOver E g a = sumOver E g b := by
  unfold sumOver
  apply congrArg List.sum
  apply List.map_congr_left
  intro bb hbb
  apply hg
  intro v hv
  rcases h v hv with hvE | hvab
  · have := allAssign_isSome hbb hvE
    rw [overrideA, overrideA]
    obtain ⟨k, hk⟩ := Option.isSome_iff_exists.mp this
    rw [hk]
  · rw [overrideA, overrideA, hvab]

-- Semantic factors (Modelled from the spec: a factor is a function from an
-- assignment of a set of discrete variables to a real value).

/-- Modelled from the spec: a semantic factor — a domain with a value
function over assignments. -/
structure SFactor where
  dom : List FinVar
  val : FAssign → ℚ

/-- Well-formedness of a semantic factor: sorted duplicate-free domain and a
value that reads only its domain. -/
def SWf (F : SFactor) : Prop := VSorted F.dom ∧ DependsOnly F.val F.dom

/-- Modelled from the spec: the unit factor (empty combine). -/
def sone : SFactor := ⟨[], fun _ => 1⟩

/-- Modelled from the spec: combine with the product operation — a factor
over the union of the domains whose value is the pointwise product. -/
def sprod (F G : SFactor) : SFactor :=
  ⟨setUnion F.dom G.dom, fun a => F.val a * G.val a⟩

/-- Modelled from the spec: collapse with sum onto a retained set — the
marginal of a factor onto `R`, eliminating the rest of its domain by
summation. -/
def smarg (F : SFactor) (R : List FinVar) : SFactor :=
  ⟨setIntersect F.dom R,
   fun a => sumOver (F.dom.filter (fun v => decide (v ∉ R))) F.val a⟩

theorem swf_sone : SWf sone :=
  ⟨List.sorted_nil, fun _ _ _ => rfl⟩

theorem dependsOnly_mono {g : FAssign → ℚ} {S S' : List FinVar}
    (h : DependsOnly g S) (hsub : ∀ v ∈ S, v ∈ S') : DependsOnly g S' :=
  fun a b hab => h a b (fun v hv => hab v (hsub v hv))

theorem swf_sprod {F G : SFactor} (hF : SWf F) (hG : SWf G) :
    SWf (sprod F G) := by
  refine ⟨sorted_setUnion _ _, ?_⟩
  intro a b hab
  show F.val a * G.val a = F.val b * G.val b
  rw [hF.2 a b (fun v hv => hab v (mem_setUnion.mpr (Or.inl hv))),
    hG.2 a b (fun v hv => hab v (mem_setUnion.mpr (Or.inr hv)))]

theorem swf_smarg {F : SFactor} (hF : SWf F) (R : List FinVar) :
    SWf (smarg F R) := by
  refine ⟨sorted_setIntersect R hF.1, ?_⟩
  intro a b hab
  show sumOver (F.dom.filter (fun v => decide (v ∉ R))) F.val a =
    sumOver (F.dom.filter (fun v => decide (v ∉ R))) F.val b
  apply sumOver_congr_outside hF.2
  intro v hv
  by_cases hvR : v ∈ R
  · right
    apply hab
    exact mem_setIntersect.mpr ⟨hv, hvR⟩
  · left
    rw [List.mem_filter]
    exact ⟨hv, by simpa using hvR⟩

theorem sprod_val (F G : SFactor) (a : FAssign) :
    (sprod F G).val a = F.val a * G.val a := rfl

theorem smarg_val (F : SFactor) (R : List FinVar) (a : FAssign) :
    (smarg F R).val a =
      sumOver (F.dom.filter (fun v => decide (v ∉ R))) F.val a := rfl

-- The junction tree (Modelled from the spec, section 3: an undirected tree
-- of cliques with separators, here rooted for the two-pass traversal of
-- section 4.5; a forest is the list of child subtrees of a node).

mutual
/-- Modelled from the spec: a rooted junction tree — a clique, the clique's
potential, and the child subtrees. -/
inductive JTree where
  | node : List FinVar → SFactor → JForest → JTree

/-- Child subtrees of a junction-tree node. -/
inductive JForest where
  | nil : JForest
  | cons : JTree → JForest → JForest
end

/-- Root clique of a subtree. -/
def treeClique : JTree → List FinVar
  | .node c _ _ => c

mutual
/-- All variables appearing in cliques of a subtree. -/
def treeVars : JTree → List FinVar
  | .node c _ ch => c ++ forestVars ch

/-- All variables appearing in cliques of a forest. -/
def forestVars : JForest → List FinVar
  | .nil => []
  | .cons t ts => treeVars t ++ forestVars ts
end

mutual
/-- Product of all clique potentials in a subtree. -/
def treePots : JTree → SFactor
  | .node _ φ ch => sprod φ (forestPots ch)

/-- Product of all clique potentials in a forest. -/
def forestPots : JForest → SFactor
  | .nil => sone
  | .cons t ts => sprod (treePots t) (forestPots ts)
end

mutual
/-- Modelled from the spec: the Shafer-Shenoy message a subtree sends to
its parent — the sending clique's potential combined with the messages from
all its other neighbors (its children), marginalized onto the parent. -/
def collectMsg (P : List FinVar) : JTree → SFactor
  | .node c φ ch => smarg (sprod φ (collectProd c ch)) P

/-- Product of the collect messages of a forest into the parent clique. -/
def collectProd (c : List FinVar) : JForest → SFactor
  | .nil => sone
  | .cons t ts => sprod (collectMsg c t) (collectProd c ts)
end

mutual
/-- Modelled from the spec, section 4.4/4.5 (the *structurally valid* and
*populated* state a junction tree built from factors via variable
elimination must reach before calibration): each clique is a sorted domain
carrying a well-formed potential over exactly that clique; each child
subtree shares variables with its parent's clique only through its own root
clique (the separator form of the running intersection property), and two
distinct child subtrees share variables only inside the parent clique. -/
def JTInv : JTree → Prop
  | .node c φ ch =>
    VSorted c ∧ SWf φ ∧ φ.dom = c ∧ JFInv c ch

/-- The forest part of `JTInv`. -/
def JFInv (c : List FinVar) : JForest → Prop
  | .nil => True
  | .cons t ts =>
    JTInv t ∧
    (∀ w ∈ treeVars t, w ∈ c → w ∈ treeClique t) ∧
    (∀ w ∈ treeVars t, w ∈ forestVars ts → w ∈ c) ∧
    JFInv c ts
end

/-- The variables a subtree eliminates when sending toward `P`. -/
def elimVars (t : JTree) (P : List FinVar) : List FinVar :=
  (domOfList (treeVars t)).filter (fun v => decide (v ∉ P))

/-- The variables a forest eliminates when sending into the clique `c`. -/
def elimVarsF (ts : JForest) (c : List FinVar) : List FinVar :=
  (domOfList (forestVars ts)).filter (fun v => decide (v ∉ c))

theorem dependsOnly_sumOver {E S : List FinVar} {g : FAssign → ℚ}
    (hg : DependsOnly g S) : DependsOnly (fun a => sumOver E g a) S :=
  fun _ _ hab => sumOver_congr_outside hg (fun v hv => Or.inr (hab v hv))

theorem mem_filter_not {l P : List FinVar} {w : FinVar} :
    w ∈ l.filter (fun v => decide (v ∉ P)) ↔ w ∈ l ∧ w ∉ P := by
  rw [List.mem_filter]
  simp

theorem nodup_filter_domOfList (l : List FinVar) (p : FinVar → Bool) :
    ((domOfList l).filter p).Nodup :=
  sorted_nodup (List.Sorted.filter p (sorted_domOfList l))

theorem mem_filter_domOfList {l P : List FinVar} {w : FinVar} :
    w ∈ (domOfList l).filter (fun v => decide (v ∉ P)) ↔ w ∈ l ∧ w ∉ P := by
  rw [mem_filter_not, mem_domOfList]

theorem sumOver_block_prod {E₁ E₂ : List FinVar} {g₁ g₂ : FAssign → ℚ}
    {S₁ S₂ : List FinVar}
    (hg₁ : DependsOnly g₁ S₁) (hg₂ : DependsOnly g₂ S₂)
    (hn₁ : E₁.Nodup) (hn₂ : E₂.Nodup)
    (hd : ∀ v ∈ E₁, v ∉ E₂)
    (h₁ : ∀ v ∈ E₂, v ∉ S₁)
    (h₂ : ∀ v ∈ E₁, v ∉ S₂)
    (a : FAssign) :
    sumOver (E₁ ++ E₂) (fun a' => g₁ a' * g₂ a') a =
      sumOver E₁ g₁ a * sumOver E₂ g₂ a := by
  have hnapp : (E₁ ++ E₂).Nodup := by
    rw [List.nodup_append]
    exact ⟨hn₁, hn₂, fun v hv₁ hv₂ => hd v hv₁ hv₂⟩
  rw [sumOver_append hnapp]
  have hstep₁ : ∀ a', sumOver E₂ (fun a'' => g₁ a'' * g₂ a'') a' =
      g₁ a' * sumOver E₂ g₂ a' := fun a' =>
    sumOver_mul_left hg₁ (fun v hv => h₁ v hv) a'
  have hrw : sumOver E₁ (fun a' => sumOver E₂ (fun a'' => g₁ a'' * g₂ a'') a') a =
      sumOver E₁ (fun a' => g₁ a' * sumOver E₂ g₂ a') a := by
    apply congrArg (fun h => sumOver E₁ h a)
    funext a'
    exact hstep₁ a'
  rw [hrw]
  have hcomm : sumOver E₁ (fun a' => g₁ a' * sumOver E₂ g₂ a') a =
      sumOver E₁ (fun a' => (fun a₀ => sumOver E₂ g₂ a₀) a' * g₁ a') a := by
    apply congrArg (fun h => sumOver E₁ h a)
    funext a'
    exact mul_comm _ _
  rw [hcomm,
    sumOver_mul_left (dependsOnly_sumOver hg₂) (fun v hv => h₂ v hv) a,
    mul_comm]

mutual
theorem treePots_wf : ∀ (t : JTree), JTInv t →
    SWf (treePots t) ∧ (∀ w ∈ (treePots t).dom, w ∈ treeVars t)
  | .node c φ ch => fun hInv => by
    rw [JTInv] at hInv
    obtain ⟨hc, hφ, hφdom, hch⟩ := hInv
    obtain ⟨hFwf, hFdom⟩ := forestPots_wf ch c hch
    refine ⟨swf_sprod hφ hFwf, ?_⟩
    intro w hw
    have hw' : w ∈ setUnion φ.dom (forestPots ch).dom := hw
    show w ∈ c ++ forestVars ch
    rw [List.mem_append]
    rcases mem_setUnion.mp hw' with h | h
    · exact Or.inl (hφdom ▸ h)
    · exact Or.inr (hFdom w h)

theorem forestPots_wf : ∀ (ts : JForest) (c : List FinVar), JFInv c ts →
    SWf (forestPots ts) ∧ (∀ w ∈ (forestPots ts).dom, w ∈ forestVars ts)
  | .nil => fun _ _ => ⟨swf_sone, fun w hw => by cases hw⟩
  | .cons t ts => fun c hInv => by
    rw [JFInv] at hInv
    obtain ⟨hT, _, _, hts⟩ := hInv
    obtain ⟨hTwf, hTdom⟩ := treePots_wf t hT
    obtain ⟨hFwf, hFdom⟩ := forestPots_wf ts c hts
    refine ⟨swf_sprod hTwf hFwf, ?_⟩
    intro w hw
    have hw' : w ∈ setUnion (treePots t).dom (forestPots ts).dom := hw
    show w ∈ treeVars t ++ forestVars ts
    rw [List.mem_append]
    rcases mem_setUnion.mp hw' with h | h
    · exact Or.inl (hTdom w h)
    · exact Or.inr (hFdom w h)
end

theorem treeVars_node (c : List FinVar) (φ : SFactor) (ch : JForest) :
    treeVars (JTree.node c φ ch) = c ++ forestVars ch := rfl

theorem forestVars_cons (t : JTree) (ts : JForest) :
    forestVars (JForest.cons t ts) = treeVars t ++ forestVars ts := rfl

theorem mem_elimVars {t : JTree} {P : List FinVar} {w : FinVar} :
    w ∈ elimVars t P ↔ w ∈ treeVars t ∧ w ∉ P := by
  rw [elimVars]
  exact mem_filter_domOfList

theorem mem_elimVarsF {ts : JForest} {c : List FinVar} {w : FinVar} :
    w ∈ elimVarsF ts c ↔ w ∈ forestVars ts ∧ w ∉ c := by
  rw [elimVarsF]
  exact mem_filter_domOfList

theorem nodup_elimVars (t : JTree) (P : List FinVar) : (elimVars t P).Nodup := by
  rw [elimVars]
  exact nodup_filter_domOfList _ _

theorem nodup_elimVarsF (ts : JForest) (c : List FinVar) :
    (elimVarsF ts c).Nodup := by
  rw [elimVarsF]
  exact nodup_filter_domOfList _ _

mutual
/-- Correctness of the Shafer-Shenoy collect message: the message a subtree
sends toward a target set `P` that meets the subtree only through its root
clique is the brute-force marginal onto `P` of the product of the subtree's
potentials. -/
theorem collect_correct : ∀ (t : JTree), JTInv t → ∀ (P : List FinVar),
    (∀ w ∈ treeVars t, w ∈ P → w ∈ treeClique t) →
    SWf (collectMsg P t) ∧
    (∀ w ∈ (collectMsg P t).dom, w ∈ treeClique t ∧ w ∈ P) ∧
    (∀ a, (collectMsg P t).val a = sumOver (elimVars t P) (treePots t).val a)
  | .node c φ ch => fun hInv P hP => by
    rw [JTInv] at hInv
    obtain ⟨hc, hφ, hφdom, hch⟩ := hInv
    obtain ⟨hCPwf, hCPdom, hCPval⟩ := collectProd_correct ch c hch
    have hunion : setUnion φ.dom (collectProd c ch).dom = c := by
      rw [hφdom]
      exact setUnion_of_subset hc hCPdom
    refine ⟨swf_smarg (swf_sprod hφ hCPwf) P, ?_, ?_⟩
    · intro w hw
      have hw' : w ∈ setIntersect (setUnion φ.dom (collectProd c ch).dom) P := hw
      obtain ⟨hw₁, hw₂⟩ := mem_setIntersect.mp hw'
      rw [hunion] at hw₁
      exact ⟨hw₁, hw₂⟩
    · intro a
      have hφdep : DependsOnly φ.val c := hφdom ▸ hφ.2
      have hEFdisj : ∀ v ∈ elimVarsF ch c, v ∉ c := fun v hv =>
        (mem_elimVarsF.mp hv).2
      have hval : (collectMsg P (JTree.node c φ ch)).val a =
          sumOver ((setUnion φ.dom (collectProd c ch).dom).filter
              (fun v => decide (v ∉ P)))
            (fun a' => φ.val a' * (collectProd c ch).val a') a := rfl
      rw [hval, hunion]
      have h₁ : sumOver (c.filter (fun v => decide (v ∉ P)))
          (fun a' => φ.val a' * (collectProd c ch).val a') a =
          sumOver (c.filter (fun v => decide (v ∉ P)))
            (fun a' => sumOver (elimVarsF ch c)
              (fun a'' => φ.val a'' * (forestPots ch).val a'') a') a := by
        apply congrArg (fun h => sumOver (c.filter (fun v => decide (v ∉ P))) h a)
        funext a'
        rw [hCPval a', sumOver_mul_left hφdep hEFdisj a']
      rw [h₁]
      have hnodapp : (c.filter (fun v => decide (v ∉ P)) ++ elimVarsF ch c).Nodup := by
        rw [List.nodup_append]
        refine ⟨List.Nodup.filter _ (sorted_nodup hc),
          nodup_elimVarsF ch c, ?_⟩
        intro v hv hv'
        exact hEFdisj v hv' (List.mem_of_mem_filter hv)
      rw [← sumOver_append hnodapp]
      apply sumOver_set_inv hnodapp (nodup_elimVars _ P) ?_ _ a
      intro w
      rw [List.mem_append, List.mem_filter, mem_elimVars, mem_elimVarsF,
        treeVars_node, List.mem_append]
      constructor
      · rintro (⟨hwc, hwP⟩ | ⟨hwf, hwc⟩)
        · exact ⟨Or.inl hwc, by simpa using hwP⟩
        · refine ⟨Or.inr hwf, fun hwP => hwc ?_⟩
          exact hP w (by
            rw [treeVars_node, List.mem_append]
            exact Or.inr hwf) hwP
      · rintro ⟨hwcf, hwP⟩
        rcases hwcf with hwc | hwf
        · exact Or.inl ⟨hwc, by simpa using hwP⟩
        · by_cases hwc : w ∈ c
          · exact Or.inl ⟨hwc, by simpa using hwP⟩
          · exact Or.inr ⟨hwf, hwc⟩

/-- Correctness of the product of collect messages of a forest into the
parent clique `c`. -/
theorem collectProd_correct : ∀ (ts : JForest) (c : List FinVar),
    JFInv c ts →
    SWf (collectProd c ts) ∧
    (∀ w ∈ (collectProd c ts).dom, w ∈ c) ∧
    (∀ a, (collectProd c ts).val a =
      sumOver (elimVarsF ts c) (forestPots ts).val a)
  | .nil => fun c _ => by
    refine ⟨swf_sone, ?_, fun a => ?_⟩
    · intro w hw
      exact absurd (show w ∈ ([] : List FinVar) from hw) (List.not_mem_nil w)
    · exact (sumOver_nil sone.val a).symm
  | .cons t ts => fun c hInv => by
    rw [JFInv] at hInv
    obtain ⟨hT, hsep, hsib, hts⟩ := hInv
    obtain ⟨hμwf, hμdom, hμval⟩ := collect_correct t hT c hsep
    obtain ⟨hCPwf, hCPdom, hCPval⟩ := collectProd_correct ts c hts
    obtain ⟨hPTwf, hPTdom⟩ := treePots_wf t hT
    obtain ⟨hPFwf, hPFdom⟩ := forestPots_wf ts c hts
    refine ⟨swf_sprod hμwf hCPwf, ?_, ?_⟩
    · intro w hw
      have hw' : w ∈ setUnion (collectMsg c t).dom (collectProd c ts).dom := hw
      rcases mem_setUnion.mp hw' with h | h
      · exact (hμdom w h).2
      · exact hCPdom w h
    · intro a
      have hval : (collectProd c (JForest.cons t ts)).val a =
          (collectMsg c t).val a * (collectProd c ts).val a := rfl
      rw [hval, hμval a, hCPval a]
      have hdepT : DependsOnly (treePots t).val (treeVars t) :=
        dependsOnly_mono hPTwf.2 hPTdom
      have hdepF : DependsOnly (forestPots ts).val (forestVars ts) :=
        dependsOnly_mono hPFwf.2 hPFdom
      have hblock := sumOver_block_prod hdepT hdepF
        (nodup_elimVars t c) (nodup_elimVarsF ts c)
        (fun v hv hv' => by
          obtain ⟨hv₁, hv₂⟩ := mem_elimVars.mp hv
          obtain ⟨hv₃, _⟩ := mem_elimVarsF.mp hv'
          exact hv₂ (hsib v hv₁ hv₃))
        (fun v hv hv' => by
          obtain ⟨hv₁, hv₂⟩ := mem_elimVarsF.mp hv
          exact hv₂ (hsib v hv' hv₁))
        (fun v hv hv' => by
          obtain ⟨hv₁, hv₂⟩ := mem_elimVars.mp hv
          exact hv₂ (hsib v hv₁ hv'))
        a
      rw [← hblock]
      have hnodapp : (elimVars t c ++ elimVarsF ts c).Nodup := by
        rw [List.nodup_append]
        refine ⟨nodup_elimVars t c, nodup_elimVarsF ts c, ?_⟩
        intro v hv hv'
        obtain ⟨hv₁, hv₂⟩ := mem_elimVars.mp hv
        obtain ⟨hv₃, _⟩ := mem_elimVarsF.mp hv'
        exact hv₂ (hsib v hv₁ hv₃)
      apply sumOver_set_inv hnodapp (nodup_elimVarsF _ c) ?_ _ a
      intro w
      rw [List.mem_append, mem_elimVars, mem_elimVarsF, mem_elimVarsF,
        forestVars_cons, List.mem_append]
      constructor
      · rintro (⟨hw₁, hw₂⟩ | ⟨hw₁, hw₂⟩)
        · exact ⟨Or.inl hw₁, hw₂⟩
        · exact ⟨Or.inr hw₁, hw₂⟩
      · rintro ⟨hw₁ | hw₁, hw₂⟩
        · exact Or.inl ⟨hw₁, hw₂⟩
        · exact Or.inr ⟨hw₁, hw₂⟩
end

theorem sumOver_ext {d e : List FinVar} (hnd : d.Nodup) (hne : e.Nodup)
    (hmem : ∀ w, w ∈ d ↔ w ∈ e) {g h : FAssign → ℚ}
    (hgh : ∀ a, g a = h a) (a : FAssign) :
    sumOver d g a = sumOver e h a := by
  rw [show g = h from funext hgh]
  exact sumOver_set_inv hnd hne hmem h a

theorem dependsOnly_mul {f g : FAssign → ℚ} {S S' : List FinVar}
    (hf : DependsOnly f S) (hg : DependsOnly g S') :
    DependsOnly (fun a => f a * g a) (S ++ S') := by
  intro a b hab
  show f a * g a = f b * g b
  rw [hf a b (fun v hv => hab v (List.mem_append.mpr (Or.inl hv))),
    hg a b (fun v hv => hab v (List.mem_append.mpr (Or.inr hv)))]

-- The distribute pass of Shafer-Shenoy (Modelled from the spec: the
-- message from a node to a child combines the node's potential with the
-- messages from all other neighbors — its parent and the other children —
-- and marginalizes onto the child; the belief at a clique combines the
-- clique potential with all incoming messages).

mutual
/-- Calibrated beliefs of all cliques of a subtree, given the downward
message from its parent (`sone` at the root). -/
def beliefsT (down : SFactor) : JTree → List (List FinVar × SFactor)
  | .node c φ ch =>
    (c, sprod (sprod φ down) (collectProd c ch)) ::
      beliefsF c (sprod φ down) sone ch

/-- Beliefs of the subtrees of a forest: `base` is the parent's potential
combined with its own downward message, `acc` the product of the collect
messages of the siblings already passed. -/
def beliefsF (c : List FinVar) (base acc : SFactor) :
    JForest → List (List FinVar × SFactor)
  | .nil => []
  | .cons t ts =>
    beliefsT
      (smarg (sprod base (sprod acc (collectProd c ts))) (treeClique t)) t ++
      beliefsF c base (sprod acc (collectMsg c t)) ts
end

/-- Modelled from the spec: the Shafer-Shenoy engine — collect and
distribute from an arbitrary root, every clique's belief being its
potential combined with all incoming messages. -/
def ssBeliefs (t : JTree) : List (List FinVar × SFactor) := beliefsT sone t

theorem clique_subset_vars {t : JTree} {w : FinVar}
    (h : w ∈ treeClique t) : w ∈ treeVars t := by
  cases t with
  | node c φ ch =>
    rw [treeVars_node, List.mem_append]
    exact Or.inl h

mutual
/-- Correctness of the calibrated beliefs of a subtree: with a downward
message that is the marginal onto the root clique of an outside factor
meeting the subtree only through that clique, every clique's belief is the
brute-force marginal onto that clique of the outside factor times the
subtree's potentials. -/
theorem beliefs_correct : ∀ (t : JTree), JTInv t →
    ∀ (down O : SFactor) (vout : List FinVar),
    SWf down →
    (∀ w ∈ down.dom, w ∈ treeClique t) →
    DependsOnly O.val vout →
    (∀ w ∈ vout, w ∈ treeVars t → w ∈ treeClique t) →
    (∀ a, down.val a =
      sumOver ((domOfList vout).filter (fun v => decide (v ∉ treeClique t)))
        O.val a) →
    ∀ p ∈ beliefsT down t, ∀ a,
      p.2.val a =
        sumOver ((domOfList (vout ++ treeVars t)).filter
            (fun v => decide (v ∉ p.1)))
          (fun a' => O.val a' * (treePots t).val a') a
  | .node c φ ch => fun hInv down O vout hdwf hddom hOdep hOvars hdval => by
    rw [JTInv] at hInv
    obtain ⟨hc, hφ, hφdom, hch⟩ := hInv
    obtain ⟨hCPwf, hCPdom, hCPval⟩ := collectProd_correct ch c hch
    obtain ⟨hFPwf, hFPdom⟩ := forestPots_wf ch c hch
    have hφdep : DependsOnly φ.val c := hφdom ▸ hφ.2
    have hddom' : ∀ w ∈ down.dom, w ∈ c := hddom
    have hOvars' : ∀ w ∈ vout, w ∈ c ++ forestVars ch → w ∈ c := by
      intro w hw hw'
      exact hOvars w hw (by rw [treeVars_node]; exact hw')
    have hdval' : ∀ a, down.val a =
        sumOver ((domOfList vout).filter (fun v => decide (v ∉ c)))
          O.val a := hdval
    have hEOpr : ∀ v ∈ (domOfList vout).filter (fun v => decide (v ∉ c)),
        v ∈ vout ∧ v ∉ c := fun v hv => mem_filter_domOfList.mp hv
    have hEOc : ∀ v ∈ (domOfList vout).filter (fun v => decide (v ∉ c)),
        v ∉ c := fun v hv => (hEOpr v hv).2
    have hEFpr : ∀ v ∈ elimVarsF ch c, v ∈ forestVars ch ∧ v ∉ c :=
      fun v hv => mem_elimVarsF.mp hv
    intro p hp a
    rcases List.mem_cons.mp hp with rfl | hp'
    · -- the root clique's own belief
      show (φ.val a * down.val a) * (collectProd c ch).val a = _
      rw [hdval' a, hCPval a,
        show φ.val a * sumOver ((domOfList vout).filter
            (fun v => decide (v ∉ c))) O.val a =
          sumOver ((domOfList vout).filter (fun v => decide (v ∉ c)))
            (fun a' => φ.val a' * O.val a') a from
          (sumOver_mul_left hφdep hEOc a).symm,
        ← sumOver_block_prod
          (dependsOnly_mul hφdep hOdep)
          (dependsOnly_mono hFPwf.2 hFPdom)
          (nodup_filter_domOfList _ _) (nodup_elimVarsF ch c)
          (fun v hv hv' => ((hEFpr v hv').2)
            (hOvars' v (hEOpr v hv).1 (List.mem_append.mpr (Or.inr (hEFpr v hv').1))))
          (fun v hv hv' => by
            obtain ⟨hv₁, hv₂⟩ := hEFpr v hv
            rw [List.mem_append] at hv'
            rcases hv' with h | h
            · exact hv₂ h
            · exact hv₂ (hOvars' v h (List.mem_append.mpr (Or.inr hv₁)))
          )
          (fun v hv hv' => ((hEOpr v hv).2)
            (hOvars' v (hEOpr v hv).1 (List.mem_append.mpr (Or.inr hv'))))
          a]
      apply sumOver_ext
        (by
          rw [List.nodup_append]
          refine ⟨nodup_filter_domOfList _ _, nodup_elimVarsF ch c, ?_⟩
          intro v hv hv'
          exact (hEFpr v hv').2
            (hOvars' v (hEOpr v hv).1 (List.mem_append.mpr (Or.inr (hEFpr v hv').1)))
        )
        (nodup_filter_domOfList _ _)
        (by
          intro w
          rw [List.mem_append, mem_filter_domOfList, mem_elimVarsF,
            mem_filter_domOfList, List.mem_append, treeVars_node,
            List.mem_append]
          constructor
          · rintro (⟨hw₁, hw₂⟩ | ⟨hw₁, hw₂⟩)
            · exact ⟨Or.inl hw₁, hw₂⟩
            · exact ⟨Or.inr (Or.inr hw₁), hw₂⟩
          · rintro ⟨hw₁ | hw₁ | hw₁, hw₂⟩
            · exact Or.inl ⟨hw₁, hw₂⟩
            · exact absurd hw₁ hw₂
            · exact Or.inr ⟨hw₁, hw₂⟩)
        (fun a' => by
          show (φ.val a' * O.val a') * (forestPots ch).val a' =
            O.val a' * (φ.val a' * (forestPots ch).val a')
          ring)
        a
    · -- beliefs of the child subtrees
      have hbasedom : (sprod φ down).dom = c := by
        show setUnion φ.dom down.dom = c
        rw [hφdom]
        exact setUnion_of_subset hc hddom'
      have hres := beliefsF_correct ch c (sprod φ down) sone (sprod O φ)
        (vout ++ c) hch hc (swf_sprod hφ hdwf) hbasedom swf_sone
        (fun w hw => absurd (show w ∈ ([] : List FinVar) from hw)
          (List.not_mem_nil w))
        (dependsOnly_mul hOdep hφdep)
        (by
          intro w hw hw'
          rw [List.mem_append] at hw
          rcases hw with h | h
          · exact hOvars' w h (List.mem_append.mpr (Or.inr hw'))
          · exact h)
        (fun w hw => List.mem_append.mpr (Or.inr hw))
        (by
          intro a'
          show ((φ.val a' * down.val a') * 1) = _
          rw [mul_one, hdval' a']
          have hmm : sumOver ((domOfList (vout ++ c)).filter
              (fun v => decide (v ∉ c))) (sprod O φ).val a' =
              sumOver ((domOfList vout).filter (fun v => decide (v ∉ c)))
                (fun a'' => φ.val a'' * O.val a'') a' := by
            apply sumOver_ext (nodup_filter_domOfList _ _)
              (nodup_filter_domOfList _ _)
              (by
                intro w
                rw [mem_filter_domOfList, mem_filter_domOfList,
                  List.mem_append]
                constructor
                · rintro ⟨hw₁ | hw₁, hw₂⟩
                  · exact ⟨hw₁, hw₂⟩
                  · exact absurd hw₁ hw₂
                · rintro ⟨hw₁, hw₂⟩
                  exact ⟨Or.inl hw₁, hw₂⟩)
              (fun a'' => by
                show O.val a'' * φ.val a'' = φ.val a'' * O.val a''
                ring)
              a'
          rw [hmm, sumOver_mul_left hφdep hEOc a'])
        p hp' a
      rw [hres]
      apply sumOver_ext (nodup_filter_domOfList _ _)
        (nodup_filter_domOfList _ _)
        (by
          intro w
          rw [mem_filter_domOfList, mem_filter_domOfList, List.mem_append,
            List.mem_append, List.mem_append, treeVars_node, List.mem_append]
          tauto)
        (fun a' => by
          show (O.val a' * φ.val a') * (forestPots ch).val a' =
            O.val a' * (φ.val a' * (forestPots ch).val a')
          ring)
        a

/-- Correctness of the beliefs produced while distributing over a forest:
`base` (the parent's potential times its downward message) combined with
the accumulated sibling messages equals the marginal onto the parent clique
of the accumulated outside factor. -/
theorem beliefsF_correct : ∀ (fs : JForest) (c : List FinVar)
    (base acc OB : SFactor) (voutb : List FinVar),
    JFInv c fs →
    VSorted c →
    SWf base → base.dom = c →
    SWf acc → (∀ w ∈ acc.dom, w ∈ c) →
    DependsOnly OB.val voutb →
    (∀ w ∈ voutb, w ∈ forestVars fs → w ∈ c) →
    (∀ w ∈ c, w ∈ voutb) →
    (∀ a, (sprod base acc).val a =
      sumOver ((domOfList voutb).filter (fun v => decide (v ∉ c))) OB.val a) →
    ∀ p ∈ beliefsF c base acc fs, ∀ a,
      p.2.val a =
        sumOver ((domOfList (voutb ++ forestVars fs)).filter
            (fun v => decide (v ∉ p.1)))
          (fun a' => OB.val a' * (forestPots fs).val a') a
  | .nil => fun c base acc OB voutb _ _ _ _ _ _ _ _ _ _ p hp =>
    absurd (show p ∈ ([] : List (List FinVar × SFactor)) from hp)
      (List.not_mem_nil p)
  | .cons t ts => fun c base acc OB voutb hInv hc hbwf hbdom haccwf haccdom
      hOBdep hOBvars hcv hval => by
    rw [JFInv] at hInv
    obtain ⟨hT, hsep, hsib, hts⟩ := hInv
    obtain ⟨hμwf, hμdom, hμval⟩ := collect_correct t hT c hsep
    obtain ⟨hCPwf, hCPdom, hCPval⟩ := collectProd_correct ts c hts
    obtain ⟨hPTwf, hPTdom⟩ := treePots_wf t hT
    obtain ⟨hPFwf, hPFdom⟩ := forestPots_wf ts c hts
    have hPTdep : DependsOnly (treePots t).val (treeVars t) :=
      dependsOnly_mono hPTwf.2 hPTdom
    have hPFdep : DependsOnly (forestPots ts).val (forestVars ts) :=
      dependsOnly_mono hPFwf.2 hPFdom
    have h1 : ∀ w ∈ voutb, w ∈ treeVars t → w ∈ c := fun w hw hwt =>
      hOBvars w hw (by rw [forestVars_cons, List.mem_append]; exact Or.inl hwt)
    have h2 : ∀ w ∈ voutb, w ∈ forestVars ts → w ∈ c := fun w hw hwt =>
      hOBvars w hw (by rw [forestVars_cons, List.mem_append]; exact Or.inr hwt)
    have hEOBpr : ∀ v ∈ (domOfList voutb).filter (fun v => decide (v ∉ c)),
        v ∈ voutb ∧ v ∉ c := fun v hv => mem_filter_domOfList.mp hv
    have hEtpr : ∀ v ∈ elimVars t c, v ∈ treeVars t ∧ v ∉ c :=
      fun v hv => mem_elimVars.mp hv
    have hEtspr : ∀ v ∈ elimVarsF ts c, v ∈ forestVars ts ∧ v ∉ c :=
      fun v hv => mem_elimVarsF.mp hv
    intro p hp a
    have hp2 : p ∈ beliefsT (smarg (sprod base
        (sprod acc (collectProd c ts))) (treeClique t)) t ++
        beliefsF c base (sprod acc (collectMsg c t)) ts := hp
    rcases List.mem_append.mp hp2 with hpl | hpr
    · -- a belief inside the subtree t
      have hDunion : setUnion base.dom
          (setUnion acc.dom (collectProd c ts).dom) = c := by
        rw [hbdom]
        apply setUnion_of_subset hc
        intro w hw
        rcases mem_setUnion.mp hw with h | h
        · exact haccdom w h
        · exact hCPdom w h
      have hδdom : ∀ w ∈ (smarg (sprod base
          (sprod acc (collectProd c ts))) (treeClique t)).dom,
          w ∈ treeClique t := by
        intro w hw
        exact (mem_setIntersect.mp hw).2
      have hδwf : SWf (smarg (sprod base
          (sprod acc (collectProd c ts))) (treeClique t)) :=
        swf_smarg (swf_sprod hbwf (swf_sprod haccwf hCPwf)) _
      have hδval : ∀ a', (smarg (sprod base
          (sprod acc (collectProd c ts))) (treeClique t)).val a' =
          sumOver ((domOfList (voutb ++ forestVars ts)).filter
              (fun v => decide (v ∉ treeClique t)))
            (sprod OB (forestPots ts)).val a' := by
        intro a'
        have e1 : (smarg (sprod base
            (sprod acc (collectProd c ts))) (treeClique t)).val a' =
            sumOver ((setUnion base.dom
                (setUnion acc.dom (collectProd c ts).dom)).filter
                (fun v => decide (v ∉ treeClique t)))
              (fun a'' => base.val a'' *
                (acc.val a'' * (collectProd c ts).val a'')) a' := rfl
        rw [e1, hDunion]
        have e2 : ∀ a'', base.val a'' *
            (acc.val a'' * (collectProd c ts).val a'') =
            sumOver ((domOfList voutb).filter (fun v => decide (v ∉ c)) ++
                elimVarsF ts c)
              (fun a₀ => OB.val a₀ * (forestPots ts).val a₀) a'' := by
          intro a''
          rw [show base.val a'' * (acc.val a'' * (collectProd c ts).val a'') =
            (sprod base acc).val a'' * (collectProd c ts).val a'' from by
              show _ = (base.val a'' * acc.val a'') * _
              ring,
            hval a'', hCPval a'']
          exact (sumOver_block_prod hOBdep hPFdep
            (nodup_filter_domOfList _ _) (nodup_elimVarsF ts c)
            (fun v hv hv' => (hEtspr v hv').2 (h2 v (hEOBpr v hv).1 (hEtspr v hv').1))
            (fun v hv hv' => (hEtspr v hv).2 (h2 v hv' (hEtspr v hv).1))
            (fun v hv hv' => (hEOBpr v hv).2 (h2 v (hEOBpr v hv).1 hv'))
            a'').symm
        have e3 : sumOver (c.filter (fun v => decide (v ∉ treeClique t)))
            (fun a'' => base.val a'' *
              (acc.val a'' * (collectProd c ts).val a'')) a' =
            sumOver (c.filter (fun v => decide (v ∉ treeClique t)))
              (fun a'' => sumOver
                ((domOfList voutb).filter (fun v => decide (v ∉ c)) ++
                  elimVarsF ts c)
                (fun a₀ => OB.val a₀ * (forestPots ts).val a₀) a'') a' := by
          apply congrArg (fun h => sumOver _ h a')
          funext a''
          exact e2 a''
        rw [e3]
        have hnodBig : (c.filter (fun v => decide (v ∉ treeClique t)) ++
            ((domOfList voutb).filter (fun v => decide (v ∉ c)) ++
              elimVarsF ts c)).Nodup := by
          rw [List.nodup_append, List.nodup_append]
          refine ⟨List.Nodup.filter _ (sorted_nodup hc),
            ⟨nodup_filter_domOfList _ _, nodup_elimVarsF ts c, ?_⟩, ?_⟩
          · intro v hv hv'
            exact (hEtspr v hv').2 (h2 v (hEOBpr v hv).1 (hEtspr v hv').1)
          · intro v hv hv'
            have hvc : v ∈ c := List.mem_of_mem_filter hv
            rw [List.mem_append] at hv'
            rcases hv' with h | h
            · exact (hEOBpr v h).2 hvc
            · exact (hEtspr v h).2 hvc
        rw [← sumOver_append hnodBig]
        apply sumOver_ext hnodBig (nodup_filter_domOfList _ _)
          (by
            intro w
            rw [List.mem_append, List.mem_append, List.mem_filter,
              mem_filter_domOfList, mem_elimVarsF, mem_filter_domOfList,
              List.mem_append]
            constructor
            · rintro (⟨hw₁, hw₂⟩ | ⟨hw₁, hw₂⟩ | ⟨hw₁, hw₂⟩)
              · exact ⟨Or.inl (hcv w hw₁), by simpa using hw₂⟩
              · refine ⟨Or.inl hw₁, fun hwt => hw₂ ?_⟩
                exact h1 w hw₁ (clique_subset_vars hwt)
              · refine ⟨Or.inr hw₁, fun hwt => hw₂ ?_⟩
                exact hsib w (clique_subset_vars hwt) hw₁
            · rintro ⟨hw₁ | hw₁, hw₂⟩
              · by_cases hwc : w ∈ c
                · exact Or.inl ⟨hwc, by simpa using hw₂⟩
                · exact Or.inr (Or.inl ⟨hw₁, hwc⟩)
              · by_cases hwc : w ∈ c
                · exact Or.inl ⟨hwc, by simpa using hw₂⟩
                · exact Or.inr (Or.inr ⟨hw₁, hwc⟩))
          (fun _ => rfl)
          a'
      have htree := beliefs_correct t hT
        (smarg (sprod base (sprod acc (collectProd c ts))) (treeClique t))
        (sprod OB (forestPots ts)) (voutb ++ forestVars ts)
        hδwf hδdom
        (dependsOnly_mul hOBdep hPFdep)
        (by
          intro w hw hwt
          rw [List.mem_append] at hw
          rcases hw with h | h
          · exact hsep w hwt (h1 w h hwt)
          · exact hsep w hwt (hsib w hwt h))
        hδval
        p hpl a
      rw [htree]
      apply sumOver_ext (nodup_filter_domOfList _ _)
        (nodup_filter_domOfList _ _)
        (by
          intro w
          rw [mem_filter_domOfList, mem_filter_domOfList, List.mem_append,
            List.mem_append, List.mem_append, forestVars_cons,
            List.mem_append]
          tauto)
        (fun a' => by
          show (OB.val a' * (forestPots ts).val a') * (treePots t).val a' =
            OB.val a' * ((treePots t).val a' * (forestPots ts).val a')
          ring)
        a
    · -- a belief among the later siblings
      have hrest := beliefsF_correct ts c base (sprod acc (collectMsg c t))
        (sprod OB (treePots t)) (voutb ++ treeVars t) hts hc hbwf hbdom
        (swf_sprod haccwf hμwf)
        (by
          intro w hw
          rcases mem_setUnion.mp hw with h | h
          · exact haccdom w h
          · exact (hμdom w h).2)
        (dependsOnly_mul hOBdep hPTdep)
        (by
          intro w hw hwts
          rw [List.mem_append] at hw
          rcases hw with h | h
          · exact h2 w h hwts
          · exact hsib w h hwts)
        (fun w hw => List.mem_append.mpr (Or.inl (hcv w hw)))
        (by
          intro a'
          show (base.val a' * (acc.val a' * (collectMsg c t).val a')) = _
          rw [show base.val a' * (acc.val a' * (collectMsg c t).val a') =
              (sprod base acc).val a' * (collectMsg c t).val a' from by
            show _ = (base.val a' * acc.val a') * _
            ring,
            hval a', hμval a',
            ← sumOver_block_prod hOBdep hPTdep
              (nodup_filter_domOfList _ _) (nodup_elimVars t c)
              (fun v hv hv' => (hEtpr v hv').2 (h1 v (hEOBpr v hv).1 (hEtpr v hv').1))
              (fun v hv hv' => (hEtpr v hv).2 (h1 v hv' (hEtpr v hv).1))
              (fun v hv hv' => (hEOBpr v hv).2 (h1 v (hEOBpr v hv).1 hv'))
              a']
          apply sumOver_ext
            (by
              rw [List.nodup_append]
              refine ⟨nodup_filter_domOfList _ _, nodup_elimVars t c, ?_⟩
              intro v hv hv'
              exact (hEtpr v hv').2 (h1 v (hEOBpr v hv).1 (hEtpr v hv').1))
            (nodup_filter_domOfList _ _)
            (by
              intro w
              rw [List.mem_append, mem_filter_domOfList, mem_elimVars,
                mem_filter_domOfList, List.mem_append]
              constructor
              · rintro (⟨hw₁, hw₂⟩ | ⟨hw₁, hw₂⟩)
                · exact ⟨Or.inl hw₁, hw₂⟩
                · exact ⟨Or.inr hw₁, hw₂⟩
              · rintro ⟨hw₁ | hw₁, hw₂⟩
                · exact Or.inl ⟨hw₁, hw₂⟩
                · exact Or.inr ⟨hw₁, hw₂⟩)
            (fun _ => rfl)
            a')
        p hpr a
      rw [hrest]
      apply sumOver_ext (nodup_filter_domOfList _ _)
        (nodup_filter_domOfList _ _)
        (by
          intro w
          rw [mem_filter_domOfList, mem_filter_domOfList, List.mem_append,
            List.mem_append, List.mem_append, forestVars_cons,
            List.mem_append]
          tauto)
        (fun a' => by
          show (OB.val a' * (treePots t).val a') * (forestPots ts).val a' =
            OB.val a' * ((treePots t).val a' * (forestPots ts).val a')
          ring)
        a
end

-- The Hugin engine (Modelled from the spec, section 4.5: cliques keep
-- working potentials updated in place; the collect messages are the same
-- marginals as in Shafer-Shenoy and are stored on the separators; during
-- distribute the parent sends the marginal of its calibrated potential
-- onto the separator divided (safe division, 0/0 -> 0) by the stored
-- separator potential, and the child multiplies the quotient in).

/-- Modelled from the spec: pointwise safe division of two factors, on the
numerator's domain. -/
def sdivF (F G : SFactor) : SFactor :=
  ⟨F.dom, fun a => safeDivides (F.val a) (G.val a)⟩

mutual
/-- Calibrated Hugin beliefs of all cliques of a subtree, given the
quotient message received from the parent (`sone` at the root). -/
def hugT (q : SFactor) : JTree → List (List FinVar × SFactor)
  | .node c φ ch =>
    (c, sprod (sprod φ q) (collectProd c ch)) ::
      hugF c (sprod (sprod φ q) (collectProd c ch)) ch

/-- Hugin beliefs of the subtrees of a forest: `B` is the parent's
calibrated potential; each child receives the marginal of `B` onto the
child's clique divided by the separator potential stored during collect. -/
def hugF (c : List FinVar) (B : SFactor) :
    JForest → List (List FinVar × SFactor)
  | .nil => []
  | .cons t ts =>
    hugT (sdivF (smarg B (treeClique t)) (collectMsg c t)) t ++ hugF c B ts
end

/-- Modelled from the spec: the Hugin engine — the calibrated working
potential of every clique after the collect and distribute passes. -/
def huginBeliefs (t : JTree) : List (List FinVar × SFactor) := hugT sone t

-- Positivity: with strictly positive clique potentials and nonempty
-- variable domains every message is strictly positive, so the Hugin
-- divisions are exact.

mutual
/-- All clique potentials of a subtree are strictly positive. -/
def PosPots : JTree → Prop
  | .node _ φ ch => (∀ a, 0 < φ.val a) ∧ PosPotsF ch

/-- All clique potentials of a forest are strictly positive. -/
def PosPotsF : JForest → Prop
  | .nil => True
  | .cons t ts => PosPots t ∧ PosPotsF ts
end

mutual
theorem treePots_pos : ∀ (t : JTree), PosPots t →
    ∀ a, 0 < (treePots t).val a
  | .node c φ ch => fun hp a => by
    have hp' : (∀ a, 0 < φ.val a) ∧ PosPotsF ch := hp
    show 0 < φ.val a * (forestPots ch).val a
    exact mul_pos (hp'.1 a) (forestPots_pos ch hp'.2 a)

theorem forestPots_pos : ∀ (ts : JForest), PosPotsF ts →
    ∀ a, 0 < (forestPots ts).val a
  | .nil => fun _ a => by
    show (0 : ℚ) < 1
    exact one_pos
  | .cons t ts => fun hp a => by
    have hp' : PosPots t ∧ PosPotsF ts := hp
    show 0 < (treePots t).val a * (forestPots ts).val a
    exact mul_pos (treePots_pos t hp'.1 a) (forestPots_pos ts hp'.2 a)
end

theorem allAssign_exists {E : List FinVar} (hE : ∀ v ∈ E, 0 < v.card) :
    ∃ b, b ∈ allAssign E := by
  induction E with
  | nil => exact ⟨fun _ => none, List.mem_singleton_self _⟩
  | cons v vs ih =>
    obtain ⟨b, hb⟩ := ih (fun w hw => hE w (List.mem_cons_of_mem v hw))
    refine ⟨updateA b v 0, ?_⟩
    rw [allAssign]
    exact List.mem_flatMap.mpr ⟨b, hb, List.mem_map.mpr
      ⟨0, List.mem_range.mpr (hE v (List.mem_cons_self v vs)), rfl⟩⟩

theorem sumOver_pos {E : List FinVar} {f : FAssign → ℚ}
    (hf : ∀ a', 0 < f a') (hE : ∀ v ∈ E, 0 < v.card) (a : FAssign) :
    0 < sumOver E f a := by
  obtain ⟨b, hb⟩ := allAssign_exists hE
  rw [sumOver]
  apply List.sum_pos
  · intro x hx
    obtain ⟨b', _, rfl⟩ := List.mem_map.mp hx
    exact hf _
  · exact List.ne_nil_of_mem (List.mem_map.mpr ⟨b, hb, rfl⟩)

theorem forall₂_mem_left {α β : Type} {R : α → β → Prop} :
    ∀ {l₁ : List α} {l₂ : List β}, List.Forall₂ R l₁ l₂ →
    ∀ x ∈ l₁, ∃ y ∈ l₂, R x y := by
  intro l₁ l₂ h
  induction h with
  | nil => intro x hx; cases hx
  | cons hR _ ih =>
    intro x hx
    rcases List.mem_cons.mp hx with rfl | hx'
    · exact ⟨_, List.mem_cons_self _ _, hR⟩
    · obtain ⟨y, hy, hxy⟩ := ih x hx'
      exact ⟨y, List.mem_cons_of_mem _ hy, hxy⟩

theorem forall₂_append {α β : Type} {R : α → β → Prop} :
    ∀ {l₁ u₁ : List α} {l₂ u₂ : List β}, List.Forall₂ R l₁ l₂ →
    List.Forall₂ R u₁ u₂ → List.Forall₂ R (l₁ ++ u₁) (l₂ ++ u₂) := by
  intro l₁ u₁ l₂ u₂ h h'
  induction h with
  | nil => exact h'
  | cons hR _ ih => exact List.Forall₂.cons hR ih

mutual
/-- Pointwise equivalence of the Hugin and Shafer-Shenoy calibrations on a
subtree: when the Hugin quotient message from the parent is pointwise equal
to the Shafer-Shenoy downward message, the two engines list the same
cliques with pointwise equal belief values. -/
theorem hugT_eq : ∀ (t : JTree), JTInv t → PosPots t →
    (∀ v ∈ treeVars t, 0 < v.card) →
    ∀ (q down : SFactor),
    (∀ w ∈ q.dom, w ∈ treeClique t) →
    (∀ w ∈ down.dom, w ∈ treeClique t) →
    (∀ a, q.val a = down.val a) →
    List.Forall₂ (fun p p' => p.1 = p'.1 ∧ ∀ a, p.2.val a = p'.2.val a)
      (hugT q t) (beliefsT down t)
  | .node c φ ch => fun hInv hp hcard q down hqdom hddom hq => by
    rw [JTInv] at hInv
    obtain ⟨hc, hφ, hφdom, hch⟩ := hInv
    have hp' : (∀ a, 0 < φ.val a) ∧ PosPotsF ch := hp
    obtain ⟨hCPwf, hCPdom, hCPval⟩ := collectProd_correct ch c hch
    have hcard' : ∀ v ∈ forestVars ch, 0 < v.card := fun v hv =>
      hcard v (by rw [treeVars_node, List.mem_append]; exact Or.inr hv)
    apply List.Forall₂.cons
    · refine ⟨rfl, fun a => ?_⟩
      show (φ.val a * q.val a) * (collectProd c ch).val a =
        (φ.val a * down.val a) * (collectProd c ch).val a
      rw [hq a]
    · apply hugF_eq ch c (sprod (sprod φ q) (collectProd c ch))
        (sprod φ down) sone hch hp'.2 hcard' hc
      · show setUnion φ.dom down.dom = c
        rw [hφdom]
        exact setUnion_of_subset hc hddom
      · intro w hw
        exact absurd (show w ∈ ([] : List FinVar) from hw)
          (List.not_mem_nil w)
      · intro a
        show (φ.val a * q.val a) * (collectProd c ch).val a =
          (φ.val a * down.val a) * (1 * (collectProd c ch).val a)
        rw [hq a]; ring
      · show setUnion (setUnion φ.dom q.dom) (collectProd c ch).dom = c
        rw [show setUnion (setUnion φ.dom q.dom) (collectProd c ch).dom =
            setUnion (setUnion c q.dom) (collectProd c ch).dom from by
          rw [hφdom], setUnion_of_subset hc hqdom]
        exact setUnion_of_subset hc hCPdom

/-- The forest part of `hugT_eq`: `B` is the parent's calibrated Hugin
potential, pointwise equal to `base` times the product of all child
messages; the quotient each child receives equals the Shafer-Shenoy
downward message. -/
theorem hugF_eq : ∀ (fs : JForest) (c : List FinVar) (B base acc : SFactor),
    JFInv c fs → PosPotsF fs → (∀ v ∈ forestVars fs, 0 < v.card) →
    VSorted c → base.dom = c → (∀ w ∈ acc.dom, w ∈ c) →
    (∀ a, B.val a = base.val a * (acc.val a * (collectProd c fs).val a)) →
    B.dom = c →
    List.Forall₂ (fun p p' => p.1 = p'.1 ∧ ∀ a, p.2.val a = p'.2.val a)
      (hugF c B fs) (beliefsF c base acc fs)
  | .nil => fun c B base acc _ _ _ _ _ _ _ _ => by
    show List.Forall₂ _ [] []
    exact List.Forall₂.nil
  | .cons t ts => fun c B base acc hInv hp hcard hc hbdom haccdom hBval
      hBdom => by
    rw [JFInv] at hInv
    obtain ⟨hT, hsep, hsib, hts⟩ := hInv
    have hp' : PosPots t ∧ PosPotsF ts := hp
    obtain ⟨hμwf, hμdom, hμval⟩ := collect_correct t hT c hsep
    obtain ⟨hCPwf, hCPdom, hCPval⟩ := collectProd_correct ts c hts
    have hcardT : ∀ v ∈ treeVars t, 0 < v.card := fun v hv =>
      hcard v (by rw [forestVars_cons, List.mem_append]; exact Or.inl hv)
    have hcardF : ∀ v ∈ forestVars ts, 0 < v.card := fun v hv =>
      hcard v (by rw [forestVars_cons, List.mem_append]; exact Or.inr hv)
    have hμpos : ∀ a, 0 < (collectMsg c t).val a := by
      intro a
      rw [hμval a]
      exact sumOver_pos (treePots_pos t hp'.1)
        (fun v hv => hcardT v (mem_elimVars.mp hv).1) a
    have hDunion : setUnion base.dom
        (setUnion acc.dom (collectProd c ts).dom) = c := by
      rw [hbdom]
      apply setUnion_of_subset hc
      intro w hw
      rcases mem_setUnion.mp hw with h | h
      · exact haccdom w h
      · exact hCPdom w h
    have hkey : ∀ a, (smarg B (treeClique t)).val a =
        (collectMsg c t).val a *
          (smarg (sprod base (sprod acc (collectProd c ts)))
            (treeClique t)).val a := by
      intro a
      have e1 : (smarg B (treeClique t)).val a =
          sumOver (B.dom.filter (fun v => decide (v ∉ treeClique t)))
            B.val a := rfl
      rw [e1, hBdom]
      have e2 : (smarg (sprod base (sprod acc (collectProd c ts)))
          (treeClique t)).val a =
          sumOver ((setUnion base.dom
              (setUnion acc.dom (collectProd c ts).dom)).filter
              (fun v => decide (v ∉ treeClique t)))
            (fun a' => base.val a' *
              (acc.val a' * (collectProd c ts).val a')) a := rfl
      rw [e2, hDunion]
      have e3 : sumOver (c.filter (fun v => decide (v ∉ treeClique t)))
          B.val a =
          sumOver (c.filter (fun v => decide (v ∉ treeClique t)))
            (fun a' => (collectMsg c t).val a' *
              (base.val a' * (acc.val a' * (collectProd c ts).val a'))) a := by
        apply congrArg (fun h => sumOver _ h a)
        funext a'
        rw [hBval a']
        show base.val a' * (acc.val a' *
          ((collectMsg c t).val a' * (collectProd c ts).val a')) = _
        ring
      rw [e3]
      exact sumOver_mul_left hμwf.2
        (fun v hv hv' => by
          have hv₁ := List.mem_filter.mp hv
          exact (by simpa using hv₁.2 : v ∉ treeClique t) (hμdom v hv').1)
        a
    have hqδ : ∀ a,
        (sdivF (smarg B (treeClique t)) (collectMsg c t)).val a =
        (smarg (sprod base (sprod acc (collectProd c ts)))
          (treeClique t)).val a := by
      intro a
      show safeDivides ((smarg B (treeClique t)).val a)
        ((collectMsg c t).val a) = _
      rw [hkey a, safeDivides, if_neg (ne_of_gt (hμpos a))]
      exact mul_div_cancel_left₀ _ (ne_of_gt (hμpos a))
    show List.Forall₂ _
      (hugT (sdivF (smarg B (treeClique t)) (collectMsg c t)) t ++
        hugF c B ts)
      (beliefsT (smarg (sprod base (sprod acc (collectProd c ts)))
          (treeClique t)) t ++
        beliefsF c base (sprod acc (collectMsg c t)) ts)
    apply forall₂_append
    · apply hugT_eq t hT hp'.1 hcardT
      · intro w hw
        exact (mem_setIntersect.mp
          (show w ∈ setIntersect B.dom (treeClique t) from hw)).2
      · intro w hw
        exact (mem_setIntersect.mp (show w ∈ setIntersect
          (setUnion base.dom (setUnion acc.dom (collectProd c ts).dom))
          (treeClique t) from hw)).2
      · exact hqδ
    · apply hugF_eq ts c B base (sprod acc (collectMsg c t)) hts hp'.2
        hcardF hc hbdom
      · intro w hw
        rcases mem_setUnion.mp
            (show w ∈ setUnion acc.dom (collectMsg c t).dom from hw) with
          h | h
        · exact haccdom w h
        · exact (hμdom w h).2
      · intro a
        rw [hBval a]
        show base.val a * (acc.val a *
          ((collectMsg c t).val a * (collectProd c ts).val a)) =
          base.val a * ((acc.val a * (collectMsg c t).val a) *
            (collectProd c ts).val a)
        ring
      · exact hBdom
end

/-- C1: for every junction tree in the structurally valid, populated state
the builder guarantees (sorted cliques carrying well-formed potentials over
exactly their cliques, running intersection between parent and child and
between siblings), with strictly positive potentials over nonempty
variable domains: the calibrated Shafer-Shenoy belief at every clique is
exactly equal — hence within any numerical tolerance — to the brute-force
marginal, onto that clique's variables, of the product of all original
potentials; the Hugin engine lists the same cliques with pointwise equal
calibrated beliefs; hence every Hugin belief is that same brute-force
marginal. -/
theorem C1_calibration_correctness (t : JTree) (hInv : JTInv t)
    (hpos : PosPots t) (hcard : ∀ v ∈ treeVars t, 0 < v.card) :
    (∀ p ∈ ssBeliefs t, ∀ a, p.2.val a =
      sumOver ((domOfList (treeVars t)).filter (fun v => decide (v ∉ p.1)))
        (treePots t).val a) ∧
    List.Forall₂ (fun p p' => p.1 = p'.1 ∧ ∀ a, p.2.val a = p'.2.val a)
      (huginBeliefs t) (ssBeliefs t) ∧
    (∀ p ∈ huginBeliefs t, ∀ a, p.2.val a =
      sumOver ((domOfList (treeVars t)).filter (fun v => decide (v ∉ p.1)))
        (treePots t).val a) := by
  have hss : ∀ p ∈ ssBeliefs t, ∀ a, p.2.val a =
      sumOver ((domOfList (treeVars t)).filter (fun v => decide (v ∉ p.1)))
        (treePots t).val a := by
    intro p hp a
    have h := beliefs_correct t hInv sone sone []
      swf_sone
      (fun w hw => absurd (show w ∈ ([] : List FinVar) from hw)
        (List.not_mem_nil w))
      (fun _ _ _ => rfl)
      (fun w hw => absurd hw (List.not_mem_nil w))
      (fun a' => (sumOver_nil sone.val a').symm)
      p hp a
    rw [show (fun a' => sone.val a' * (treePots t).val a') =
        (treePots t).val from funext fun a' => one_mul _] at h
    exact h
  have hF₂ : List.Forall₂ (fun p p' => p.1 = p'.1 ∧
      ∀ a, p.2.val a = p'.2.val a) (huginBeliefs t) (ssBeliefs t) :=
    hugT_eq t hInv hpos hcard sone sone
      (fun w hw => absurd (show w ∈ ([] : List FinVar) from hw)
        (List.not_mem_nil w))
      (fun w hw => absurd (show w ∈ ([] : List FinVar) from hw)
        (List.not_mem_nil w))
      (fun _ => rfl)
  refine ⟨hss, hF₂, ?_⟩
  intro p hp a
  obtain ⟨p', hp', hpp⟩ := forall₂_mem_left hF₂ p hp
  rw [hpp.2 a, hss p' hp' a, hpp.1]

-- A concrete two-clique junction tree over three binary variables for the
-- witness: cliques {X,Y} and {Y,Z} with separator {Y}.

def wvX : FinVar := ⟨0, 2⟩

def wvY : FinVar := ⟨1, 2⟩

def wvZ : FinVar := ⟨2, 2⟩

def phiXY : SFactor :=
  ⟨[wvX, wvY],
   fun a => (((a wvX).getD 0 : ℚ) + 1) * (((a wvY).getD 0 : ℚ) + 1)⟩

def phiYZ : SFactor :=
  ⟨[wvY, wvZ], fun a => ((a wvY).getD 0 : ℚ) + ((a wvZ).getD 0 : ℚ) + 1⟩

def witJT : JTree :=
  .node [wvX, wvY] phiXY
    (.cons (.node [wvY, wvZ] phiYZ .nil) .nil)

theorem phiXY_dep : DependsOnly phiXY.val [wvX, wvY] := by
  intro a b hab
  show (((a wvX).getD 0 : ℚ) + 1) * (((a wvY).getD 0 : ℚ) + 1) =
    (((b wvX).getD 0 : ℚ) + 1) * (((b wvY).getD 0 : ℚ) + 1)
  rw [hab wvX (List.mem_cons_self _ _),
    hab wvY (List.mem_cons_of_mem _ (List.mem_cons_self _ _))]

theorem phiYZ_dep : DependsOnly phiYZ.val [wvY, wvZ] := by
  intro a b hab
  show ((a wvY).getD 0 : ℚ) + ((a wvZ).getD 0 : ℚ) + 1 =
    ((b wvY).getD 0 : ℚ) + ((b wvZ).getD 0 : ℚ) + 1
  rw [hab wvY (List.mem_cons_self _ _),
    hab wvZ (List.mem_cons_of_mem _ (List.mem_cons_self _ _))]

theorem witJT_inv : JTInv witJT := by
  show VSorted [wvX, wvY] ∧
    (VSorted phiXY.dom ∧ DependsOnly phiXY.val phiXY.dom) ∧
    phiXY.dom = [wvX, wvY] ∧
    ((VSorted [wvY, wvZ] ∧
      (VSorted phiYZ.dom ∧ DependsOnly phiYZ.val phiYZ.dom) ∧
      phiYZ.dom = [wvY, wvZ] ∧ True) ∧
     (∀ w ∈ treeVars (JTree.node [wvY, wvZ] phiYZ JForest.nil),
        w ∈ [wvX, wvY] →
          w ∈ treeClique (JTree.node [wvY, wvZ] phiYZ JForest.nil)) ∧
     (∀ w ∈ treeVars (JTree.node [wvY, wvZ] phiYZ JForest.nil),
        w ∈ forestVars JForest.nil → w ∈ [wvX, wvY]) ∧ True)
  exact ⟨by decide, ⟨by decide, phiXY_dep⟩, rfl,
    ⟨by decide, ⟨by decide, phiYZ_dep⟩, rfl, trivial⟩,
    by decide, by decide, trivial⟩

theorem phiXY_pos : ∀ a, 0 < phiXY.val a := by
  intro a
  show 0 < (((a wvX).getD 0 : ℚ) + 1) * (((a wvY).getD 0 : ℚ) + 1)
  positivity

theorem phiYZ_pos : ∀ a, 0 < phiYZ.val a := by
  intro a
  show 0 < ((a wvY).getD 0 : ℚ) + ((a wvZ).getD 0 : ℚ) + 1
  positivity

theorem witJT_pos : PosPots witJT :=
  show (∀ a, 0 < phiXY.val a) ∧
      (((∀ a, 0 < phiYZ.val a) ∧ True) ∧ True) from
    ⟨phiXY_pos, ⟨phiYZ_pos, trivial⟩, trivial⟩

theorem C1_calibration_correctness_witness :
    (∀ p ∈ ssBeliefs witJT, ∀ a, p.2.val a =
      sumOver ((domOfList (treeVars witJT)).filter
          (fun v => decide (v ∉ p.1)))
        (treePots witJT).val a) ∧
    List.Forall₂ (fun p p' => p.1 = p'.1 ∧ ∀ a, p.2.val a = p'.2.val a)
      (huginBeliefs witJT) (ssBeliefs witJT) :=
  ⟨(C1_calibration_correctness witJT witJT_inv witJT_pos (by decide)).1,
   (C1_calibration_correctness witJT witJT_inv witJT_pos (by decide)).2.1⟩

end Sill
